import Mathlib

/-!
# Key tree rendering and the load lifecycle of `DatabaseItem`

A shallow embedding of `src/modules/connections-tree/items/databaseitem.cpp`:

* `renderNamaspacedKey` / `renderKeys` are the two methods of
  `DatabaseItem::KeysTreeRenderer` (lines 155-234);
* `DatabaseItem.loadKeys`, `DatabaseItem.loadKeysCallback`,
  `DatabaseItem.onKeysRendered`, `DatabaseItem.unload`, `DatabaseItem.reload`
  are the lifecycle methods (lines 94-153), `DatabaseItem.getDisplayName`,
  `DatabaseItem.childCount` and `DatabaseItem.getIndex` the accessors of lines 31-50 and
  125-128;
* `Session.step` and `Session.run` play sequences of calls, backend callbacks and
  `finished()` signals on one item.

Qt types are library code; they are modelled here by their documented behaviour:
a `QString` is its sequence of UTF-16 code units, `QStringList::sort()` yields the
ascending rearrangement under code-unit lexicographic order, a `QList` is a `List`.
-/

namespace ConnectionsTree

/-! ## Qt strings -/

/-- One UTF-16 code unit of a `QString`. -/
abbrev QChar := Nat

/-- A `QString`, as the sequence of its code units. -/
abbrev QString := List QChar

/-- The `QString` of an ASCII literal, used to write examples readably. -/
def QString.ofAscii (s : String) : QString := s.toList.map Char.toNat

/-- Position of the first occurrence of `sep` in the string, scanning from the left;
an empty `sep` occurs at position 0 of every string. -/
def QString.find (sep : QString) : QString → Option Nat
  | [] => if sep.isPrefixOf [] then some 0 else none
  | c :: cs =>
    if sep.isPrefixOf (c :: cs) then some 0
    else (QString.find sep cs).map (· + 1)

/-- `QString::indexOf(str)`: index of the first occurrence, or `-1` when there is none. -/
def QString.indexOf (s sep : QString) : Int :=
  match QString.find sep s with
  | some i => (i : Int)
  | none => -1

/-- `QString::contains(str)`, which Qt defines as `indexOf(str) != -1`. -/
def QString.contains (s sep : QString) : Bool := QString.indexOf s sep != -1

/-- `QString::mid(position, n)`; `n = -1` is the default argument (everything from
`position` on). The case analysis is the one of Qt 5 (`QContainerImplHelper::mid`). -/
def QString.mid (s : QString) (position : Int) (n : Int) : QString :=
  if position > s.length then []
  else if position < 0 then
    if n < 0 ∨ n + position ≥ s.length then s
    else if n + position ≤ 0 then []
    else s.take (n + position).toNat
  else if n < 0 ∨ n > s.length - position then s.drop position.toNat
  else (s.drop position.toNat).take n.toNat

/-- A `QRegExp`: its pattern text and its search function `indexIn` (`-1` for no match).
The regular-expression semantics is Qt's and is left abstract. -/
structure QRegExp where
  /-- The pattern string. -/
  pattern : QString
  /-- Member `indexIn`: position of the first match in the given string, or `-1`. -/
  indexIn : QString → Int

/-- `QRegExp::isEmpty()`: the pattern string is empty. -/
def QRegExp.isEmpty (f : QRegExp) : Bool := f.pattern.isEmpty

/-- `QString::contains(const QRegExp&)`, which Qt defines as `rx.indexIn(str) != -1`. -/
def QString.containsRx (s : QString) (f : QRegExp) : Bool := f.indexIn s != -1

/-- The default-constructed `QRegExp` (`QRegExp filter;` at line 113): empty pattern,
which matches at position 0 of every string. -/
def QRegExp.default : QRegExp := ⟨[], fun _ => 0⟩

/-- `QStringList::sort()` (line 163): `std::sort` under `operator<` of `QString`, the
lexicographic order on code units. Equal strings are indistinguishable, so the outcome is
the one ascending rearrangement of the list, computed here by insertion sort. -/
def sortKeys (keys : List QString) : List QString := List.insertionSort (· ≤ ·) keys

/-! ## Tree items -/

/-- The items a render pass creates. `KeyItem(fullKey, db->getIndex(), operations, parent)`
keeps the key and the database index; `NamespaceItem(name, operations, parent)` keeps its
name and owns the ordered list of its children. The `operations` handle is the same shared
object everywhere and the `parent` back-pointer is the node that owns the item, so neither is
stored. -/
inductive TreeItem where
  | KeyItem (fullPath : QString) (dbIndex : Int)
  | NamespaceItem (displayName : QString) (childs : List TreeItem)

namespace TreeItem

/-- Modelled from the spec: `getDisplayName()` of `NamespaceItem` and `KeyItem`, whose classes
are declared in `namespaceitem.h` and `keyitem.h`. A namespace node displays the path segment it
wraps; a leaf is taken to display the key path it wraps (the lookup of `renderNamaspacedKey`
never depends on the latter, because of its `typeid` test). -/
def getDisplayName : TreeItem → QString
  | KeyItem p _ => p
  | NamespaceItem n _ => n

/-- The test `typeid(NamespaceItem) == typeid(*child)`. -/
def isNamespaceItem : TreeItem → Bool
  | KeyItem _ _ => false
  | NamespaceItem _ _ => true

end TreeItem

/-- The lookup loop of lines 212-222: the index of the first child of the current level that
displays `first` and is a `NamespaceItem`; `none` when the loop ends with a null pointer. -/
def findNamespaceItem (first : QString) : List TreeItem → Option Nat
  | [] => none
  | c :: cs =>
    if c.getDisplayName == first && c.isNamespaceItem then some 0
    else (findNamespaceItem first cs).map (· + 1)

/-- Run `f` on the child list owned by a namespace item: the effect, on the tree, of the
in-place appends that a recursive call makes through the pointer `currItem`. -/
def withChilds (f : List TreeItem → List TreeItem) : TreeItem → TreeItem
  | TreeItem.NamespaceItem n cs => TreeItem.NamespaceItem n (f cs)
  | k => k

/-- Apply `f` to the item at index `i` of a level, leaving every other item untouched. -/
def modifyAt (f : TreeItem → TreeItem) : Nat → List TreeItem → List TreeItem
  | _, [] => []
  | 0, c :: cs => f c :: cs
  | i + 1, c :: cs => c :: modifyAt f i cs

/-! ## The renderer -/

set_option linter.unusedVariables false in
/-- `KeysTreeRenderer::renderNamaspacedKey` (lines 184-234). `level` is the child list the
call works on: `m_result` when `currItem` is null, the children of `currItem` otherwise; the
value is that list after the call. `dbIndex` is `db->getIndex()`, an `int`. -/
def renderNamaspacedKey (sep : QString) (dbIndex : Int) (fullKey : QString)
    (notProcessedKeyPart : QString) (level : List TreeItem) : List TreeItem :=
  if h : (!QString.contains notProcessedKeyPart sep || sep.isEmpty) = true then
    level ++ [TreeItem.KeyItem fullKey dbIndex]
  else
    let indexOfNaspaceSeparator := QString.indexOf notProcessedKeyPart sep
    let firstNamespaceName := QString.mid notProcessedKeyPart 0 indexOfNaspaceSeparator
    let rest := QString.mid notProcessedKeyPart (indexOfNaspaceSeparator + sep.length) (-1)
    match findNamespaceItem firstNamespaceName level with
    | some i =>
      modifyAt (withChilds (fun childs => renderNamaspacedKey sep dbIndex fullKey rest childs))
        i level
    | none =>
      level ++ [TreeItem.NamespaceItem firstNamespaceName
        (renderNamaspacedKey sep dbIndex fullKey rest [])]
termination_by notProcessedKeyPart.length
decreasing_by
  all_goals
    simp only [Bool.or_eq_true, Bool.not_eq_true', not_or, Bool.not_eq_false] at h
    obtain ⟨hc, he⟩ := h
    have hpos : 0 < sep.length := by
      cases sep with
      | nil => simp at he
      | cons a t => simp
    have hidx : 0 ≤ QString.indexOf notProcessedKeyPart sep := by
      unfold QString.indexOf
      split
      · exact Int.ofNat_nonneg _
      · rename_i hnone
        simp [QString.contains, QString.indexOf, hnone] at hc
    have hne : 0 < notProcessedKeyPart.length := by
      cases hs : notProcessedKeyPart with
      | nil =>
        cases sep with
        | nil => simp at he
        | cons a t => simp [hs, QString.contains, QString.indexOf, QString.find] at hc
      | cons c cs => simp
    unfold QString.mid
    split
    · simpa using hne
    · rename_i hle
      have hnn : ¬ (QString.indexOf notProcessedKeyPart sep + (sep.length : Int) < 0) := by omega
      simp only [hnn, if_false, List.length_drop]
      simp
      omega

/-- `KeysTreeRenderer::renderKeys` (lines 155-182): sort, then render every key that passes
the filter into the growing `result`. -/
def renderKeys (keys : List QString) (filter : QRegExp) (namespaceSeparator : QString)
    (dbIndex : Int) : List TreeItem :=
  (sortKeys keys).foldl
    (fun result rawKey =>
      if (!filter.isEmpty && !QString.containsRx rawKey filter) = true then result
      else renderNamaspacedKey namespaceSeparator dbIndex rawKey rawKey result)
    []

/-- The same recursion as `renderNamaspacedKey`, driven by a step counter so that it can be
evaluated by unfolding; `renderNamaspacedKey_eq_fuel` shows that the counter
`notProcessedKeyPart.length + 1` is never exhausted. -/
def renderNamaspacedKeyFuel (sep : QString) (dbIndex : Int) (fullKey : QString) :
    Nat → QString → List TreeItem → List TreeItem
  | 0, _, level => level
  | fuel + 1, notProcessedKeyPart, level =>
    if (!QString.contains notProcessedKeyPart sep || sep.isEmpty) = true then
      level ++ [TreeItem.KeyItem fullKey dbIndex]
    else
      let indexOfNaspaceSeparator := QString.indexOf notProcessedKeyPart sep
      let firstNamespaceName := QString.mid notProcessedKeyPart 0 indexOfNaspaceSeparator
      let rest := QString.mid notProcessedKeyPart (indexOfNaspaceSeparator + sep.length) (-1)
      match findNamespaceItem firstNamespaceName level with
      | some i =>
        modifyAt (withChilds (renderNamaspacedKeyFuel sep dbIndex fullKey fuel rest)) i level
      | none =>
        level ++ [TreeItem.NamespaceItem firstNamespaceName
          (renderNamaspacedKeyFuel sep dbIndex fullKey fuel rest [])]

/-- The loop of `renderKeys` over `renderNamaspacedKeyFuel`, for evaluation. -/
def renderKeysFuel (keys : List QString) (filter : QRegExp) (namespaceSeparator : QString)
    (dbIndex : Int) : List TreeItem :=
  (sortKeys keys).foldl
    (fun result rawKey =>
      if (!filter.isEmpty && !QString.containsRx rawKey filter) = true then result
      else renderNamaspacedKeyFuel namespaceSeparator dbIndex rawKey (rawKey.length + 1)
        rawKey result)
    []

/-- The children of the item a lookup returned (none for a leaf or a missing item). -/
def childsOf : Option TreeItem → List TreeItem
  | some (TreeItem.NamespaceItem _ cs) => cs
  | _ => []

/-- The recursion of `renderNamaspacedKey` with a bound on the depth of nested calls: `none`
when a call would have to be made beyond the bound, otherwise the level after the call. -/
def renderNamaspacedKeyBounded (sep : QString) (dbIndex : Int) (fullKey : QString) :
    Nat → QString → List TreeItem → Option (List TreeItem)
  | 0, _, _ => none
  | bound + 1, notProcessedKeyPart, level =>
    if (!QString.contains notProcessedKeyPart sep || sep.isEmpty) = true then
      some (level ++ [TreeItem.KeyItem fullKey dbIndex])
    else
      let indexOfNaspaceSeparator := QString.indexOf notProcessedKeyPart sep
      let firstNamespaceName := QString.mid notProcessedKeyPart 0 indexOfNaspaceSeparator
      let rest := QString.mid notProcessedKeyPart (indexOfNaspaceSeparator + sep.length) (-1)
      match findNamespaceItem firstNamespaceName level with
      | some i =>
        (renderNamaspacedKeyBounded sep dbIndex fullKey bound rest
            (childsOf level[i]?)).map
          (fun childs => modifyAt (withChilds (fun _ => childs)) i level)
      | none =>
        (renderNamaspacedKeyBounded sep dbIndex fullKey bound rest []).map
          (fun childs => level ++ [TreeItem.NamespaceItem firstNamespaceName childs])

/-! ## Observations on a rendered tree -/

mutual
/-- The keys stored in the leaves of an item, at every depth, left to right. -/
def TreeItem.leafKeys : TreeItem → List QString
  | TreeItem.KeyItem p _ => [p]
  | TreeItem.NamespaceItem _ cs => leafKeys cs
/-- The keys stored in the leaves below a sibling list, at every depth, left to right. -/
def leafKeys : List TreeItem → List QString
  | [] => []
  | c :: cs => c.leafKeys ++ leafKeys cs
end

mutual
/-- The sibling lists strictly inside an item: the child list of every namespace item in it. -/
def TreeItem.innerLevels : TreeItem → List (List TreeItem)
  | TreeItem.KeyItem _ _ => []
  | TreeItem.NamespaceItem _ cs => cs :: innerLevels cs
/-- The child lists of all namespace items occurring, at any depth, in a sibling list. -/
def innerLevels : List TreeItem → List (List TreeItem)
  | [] => []
  | c :: cs => c.innerLevels ++ innerLevels cs
end

/-- Every sibling list of a tree: the top-level sequence and the child list of each
namespace item at any depth. -/
def allLevels (top : List TreeItem) : List (List TreeItem) := top :: innerLevels top

/-- The display names of the namespace items among the given siblings, in sibling order. -/
def namespaceNames : List TreeItem → List QString
  | [] => []
  | TreeItem.KeyItem _ _ :: cs => namespaceNames cs
  | TreeItem.NamespaceItem n _ :: cs => n :: namespaceNames cs

/-- The keys that `renderKeys` does not skip at line 172. -/
def passesFilter (filter : QRegExp) (rawKey : QString) : Bool :=
  !(!filter.isEmpty && !QString.containsRx rawKey filter)

/-- The name of the namespace a key part starts with: `firstNamespaceName` of line 207. -/
def firstSegment (notProcessedKeyPart sep : QString) : QString :=
  QString.mid notProcessedKeyPart 0 (QString.indexOf notProcessedKeyPart sep)

/-- The key part handed to the recursive call at line 232. -/
def restAfter (notProcessedKeyPart sep : QString) : QString :=
  QString.mid notProcessedKeyPart (QString.indexOf notProcessedKeyPart sep + sep.length) (-1)

mutual
/-- For every leaf of an item, left to right: the display names of the namespace items above it
inside the item, outermost first, and the key it stores. -/
def TreeItem.leafPaths : TreeItem → List (List QString × QString)
  | TreeItem.KeyItem p _ => [([], p)]
  | TreeItem.NamespaceItem n cs => (leafPaths cs).map (fun x => (n :: x.1, x.2))
/-- For every leaf below a sibling list: the names of its ancestor namespace items, outermost
first, and the key it stores. -/
def leafPaths : List TreeItem → List (List QString × QString)
  | [] => []
  | c :: cs => c.leafPaths ++ leafPaths cs
end

/-- The segments of a key, counted splits at most `fuel`: see `keySegments`. -/
def keySegmentsAux (sep : QString) : Nat → QString → List QString
  | 0, key => [key]
  | fuel + 1, key =>
    if (!QString.contains key sep || sep.isEmpty) = true then [key]
    else firstSegment key sep :: keySegmentsAux sep fuel (restAfter key sep)

/-- In the words of the specification: the list of segments obtained by repeatedly splitting
a key at the first occurrence of the separator (a key without an occurrence, or any key when
the separator is empty, is its own single segment). A key of length `n` is split fewer than
`n + 1` times, see `keySegments_eq`. -/
def keySegments (sep key : QString) : List QString :=
  keySegmentsAux sep (key.length + 1) key

mutual
/-- An item sits rightly in a level whose keys all start with `lead`: a leaf stores `lead`
followed by a part that is not split any further; a namespace item bears a name that is
followed by the first occurrence of the separator, holds at least one leaf, only keys that
start with `lead`, the name and the separator, no two namespace children of the same name, and
children that sit rightly in turn. -/
def TreeItem.WellPlaced (sep : QString) : QString → TreeItem → Prop
  | lead, TreeItem.KeyItem k _ =>
    ∃ r, k = lead ++ r ∧ (!QString.contains r sep || sep.isEmpty) = true
  | lead, TreeItem.NamespaceItem f cs =>
    QString.find sep (f ++ sep) = some f.length ∧ leafKeys cs ≠ [] ∧
      (∀ k ∈ leafKeys cs, (lead ++ f ++ sep) <+: k) ∧ (namespaceNames cs).Nodup ∧
      WellPlacedList sep (lead ++ f ++ sep) cs
/-- Every item of the level sits rightly in it. -/
def WellPlacedList (sep : QString) : QString → List TreeItem → Prop
  | _, [] => True
  | lead, c :: cs => c.WellPlaced sep lead ∧ WellPlacedList sep lead cs
end

/-! ## The display name -/

/-- `QChar::digitValue()` for the ASCII digits `0`-`9`; `none` stands for `-1`. Qt also gives a
value to the decimal digits of other scripts, which no string formed below contains after a
`%`. -/
def QChar.digitValue (c : QChar) : Option Nat :=
  if 48 ≤ c ∧ c ≤ 57 then some (c - 48) else none

/-- The place marker a text starts with, if any, as `findArgEscapes` of Qt reads it: `%`, an
optional `L`, one digit and a second one when it follows. The value is the number of the marker
and the count of code units it takes. -/
def QString.escapeAt (s : QString) : Option (Nat × Nat) :=
  match s with
  | [] => none
  | c :: rest =>
    if c = 37 then
      let hasL : Bool := rest.head? == some 76
      let body := if hasL then rest.tail else rest
      let len := if hasL then 2 else 1
      match body with
      | [] => none
      | d1 :: more =>
        match QChar.digitValue d1 with
        | none => none
        | some v1 =>
          match more.head?.bind QChar.digitValue with
          | some v2 => some (10 * v1 + v2, len + 2)
          | none => some (v1, len + 1)
    else none

/-- The numbers of the place markers of a text, left to right. -/
def QString.argEscapes : QString → List Nat
  | [] => []
  | c :: cs =>
    match QString.escapeAt (c :: cs) with
    | some (n, _) => n :: QString.argEscapes cs
    | none => QString.argEscapes cs

/-- The text with every place marker numbered `lowest` replaced by `a` (`replaceArgEscapes` of
Qt, field width 0); `skip` counts the code units of a replaced marker still to be dropped. -/
def QString.replaceArgEscapes (lowest : Nat) (a : QString) : Nat → QString → QString
  | _, [] => []
  | skip + 1, _ :: cs => QString.replaceArgEscapes lowest a skip cs
  | 0, c :: cs =>
    match QString.escapeAt (c :: cs) with
    | some (n, len) =>
      if n = lowest then a ++ QString.replaceArgEscapes lowest a (len - 1) cs
      else c :: QString.replaceArgEscapes lowest a 0 cs
    | none => c :: QString.replaceArgEscapes lowest a 0 cs

/-- `QString::arg(const QString &a)`: every occurrence of the lowest-numbered place marker is
replaced by `a`; a text without place marker is returned as it is. -/
def QString.arg (s a : QString) : QString :=
  match (QString.argEscapes s).min? with
  | none => s
  | some lowest => QString.replaceArgEscapes lowest a 0 s

/-- Decimal digits of a number, most significant first, in front of `acc`; `fuel` bounds the
number of digits. -/
def QString.digitsAux : Nat → Nat → QString → QString
  | 0, _, acc => acc
  | fuel + 1, n, acc =>
    if n < 10 then (n + 48) :: acc
    else QString.digitsAux fuel (n / 10) ((n % 10 + 48) :: acc)

/-- The decimal text of an unsigned number, as `QString::arg(uint)` inserts it for a marker
without `L`. -/
def QString.number (n : Nat) : QString := QString.digitsAux (n + 1) n []

/-- The decimal text of a signed number, as `QString::arg(int)` inserts it for a marker
without `L`. -/
def QString.numberInt (k : Int) : QString :=
  if k < 0 then 45 :: QString.number k.natAbs else QString.number k.toNat

/-! ## The database item and its load lifecycle -/

/-- The signals of `DatabaseItem`, each carrying `m_index`. -/
inductive Signal where
  | keysLoaded (index : Nat)
  | updateIcon (index : Nat)
  | unloadStarted (index : Nat)
  deriving DecidableEq, Repr

/-- Modelled from the spec: the backend accessor `Operations` (declared outside this file).
`getNamespaceSeparator()` is a synchronous query; `getDatabaseKeys(index, callback)` is
asynchronous and runs the callback later, with the raw key list, on the interactive context. -/
structure Operations where
  /-- Value returned by `getNamespaceSeparator()`. -/
  getNamespaceSeparator : QString

/-- The members of `DatabaseItem` that the lifecycle reads or writes, together with a record of
what the object has done to the outside: signals emitted, backend requests made, render passes
dispatched. -/
structure DatabaseItem where
  /-- Member `m_name`. -/
  m_name : QString
  /-- Member `m_index`. -/
  m_index : Nat
  /-- Member `m_keysCount`. -/
  m_keysCount : Int
  /-- Member `m_locked`. -/
  m_locked : Bool
  /-- Member `m_keys`. -/
  m_keys : List TreeItem
  /-- Member `m_keysLoadingWatcher`: the value `result()` yields for the future set on the
  watcher, `none` as long as `setFuture` has not been called. -/
  m_keysLoadingWatcher : Option (List TreeItem)
  /-- Signals emitted so far, oldest first. -/
  emitted : List Signal
  /-- Database indices of the `getDatabaseKeys` requests made so far, oldest first. -/
  keyRequests : List Nat
  /-- Raw keys and separator of the render passes dispatched by `QtConcurrent::run` so far. -/
  renderRuns : List (List QString × QString)

namespace DatabaseItem

/-- The constructor (lines 12-24): unlocked, no children, nothing done yet. -/
def construct (displayName : QString) (index : Nat) (keysCount : Int) : DatabaseItem where
  m_name := displayName
  m_index := index
  m_keysCount := keysCount
  m_locked := false
  m_keys := []
  m_keysLoadingWatcher := none
  emitted := []
  keyRequests := []
  renderRuns := []

/-- `DatabaseItem::getIndex` (lines 125-128): the `unsigned int` member `m_index` returned as an
`int`, that is the same number below `2^31` and the number less `2^32` from there on. -/
def getIndex (s : DatabaseItem) : Int :=
  if s.m_index % 2 ^ 32 < 2 ^ 31 then ((s.m_index % 2 ^ 32 : Nat) : Int)
  else ((s.m_index % 2 ^ 32 : Nat) : Int) - 2 ^ 32

/-- `DatabaseItem::loadKeys` (lines 94-104 and 123): everything up to and including the call
of `getDatabaseKeys`, which returns at once and leaves the request pending. -/
def loadKeys (s : DatabaseItem) : DatabaseItem :=
  if s.m_keys.length > 0 then
    { s with emitted := s.emitted ++ [Signal.keysLoaded s.m_index] }
  else
    let s1 := { s with m_locked := true }
    let s2 := { s1 with emitted := s1.emitted ++ [Signal.updateIcon s1.m_index] }
    { s2 with keyRequests := s2.keyRequests ++ [s2.m_index] }

/-- The callback handed to `getDatabaseKeys` (lines 104-122), run with the raw keys the
backend delivers. The render pass gets copies of its arguments, so the value its future will
hold is fixed at dispatch. -/
def loadKeysCallback (operations : Operations) (rawKeys : List QString) (s : DatabaseItem) :
    DatabaseItem :=
  if rawKeys.length = 0 then
    { s with m_locked := false }
  else
    let filter := QRegExp.default
    let separator := operations.getNamespaceSeparator
    let keysLoadingResult := renderKeys rawKeys filter separator s.getIndex
    { s with
      m_keysLoadingWatcher := some keysLoadingResult
      renderRuns := s.renderRuns ++ [(rawKeys, separator)] }

/-- `DatabaseItem::onKeysRendered` (lines 130-135), the slot run when the watched future has
finished; without a future on the watcher there is no such signal and no result to take. -/
def onKeysRendered (s : DatabaseItem) : Option DatabaseItem :=
  match s.m_keysLoadingWatcher with
  | none => none
  | some result =>
    let s1 := { s with m_keys := result }
    let s2 := { s1 with m_locked := false }
    some { s2 with emitted := s2.emitted ++ [Signal.keysLoaded s2.m_index] }

/-- `DatabaseItem::unload` (lines 137-147). -/
def unload (s : DatabaseItem) : DatabaseItem :=
  if s.m_keys.length = 0 then s
  else
    let s1 := { s with m_locked := true }
    let s2 := { s1 with emitted := s1.emitted ++ [Signal.unloadStarted s1.m_index] }
    let s3 := { s2 with m_keys := [] }
    { s3 with m_locked := false }

/-- `DatabaseItem::reload` (lines 149-153). -/
def reload (s : DatabaseItem) : DatabaseItem :=
  loadKeys (unload s)

/-- `DatabaseItem::childCount` (lines 47-50). -/
def childCount (s : DatabaseItem) : Nat := s.m_keys.length

/-- `DatabaseItem::getDisplayName` (lines 31-34). -/
def getDisplayName (s : DatabaseItem) : QString :=
  if s.m_keys.isEmpty then s.m_name
  else
    QString.arg
      (QString.arg (QString.arg (QString.ofAscii "%1 (%2/%3)") s.m_name)
        (QString.number s.childCount))
      (QString.numberInt s.m_keysCount)

end DatabaseItem

/-! ## Sequences of lifecycle steps -/

/-- What can happen to a database item: a call of one of its three entry points, the backend
running the callback of a pending `getDatabaseKeys` request (with the separator it then reports
and the raw keys), or the watcher signalling that the render pass has finished. -/
inductive Event where
  | loadKeys
  | unload
  | reload
  | keysDelivered (operations : Operations) (rawKeys : List QString)
  | renderFinished

/-- A database item together with what is still owed to it. -/
structure Session where
  /-- The item. -/
  item : DatabaseItem
  /-- Number of `getDatabaseKeys` callbacks that have run. -/
  callbacksRun : Nat
  /-- The render pass last set on the watcher has not yet reported `finished()`. -/
  finishedPending : Bool

namespace Session

/-- A freshly constructed item, nothing requested. -/
def start (displayName : QString) (index : Nat) (keysCount : Int) : Session :=
  ⟨DatabaseItem.construct displayName index keysCount, 0, false⟩

/-- A request to the backend has been made whose callback has not run yet. -/
def fetchOutstanding (σ : Session) : Bool :=
  decide (σ.callbacksRun < σ.item.keyRequests.length)

/-- A backend fetch or a render pass for this item is outstanding. -/
def outstanding (σ : Session) : Bool := σ.fetchOutstanding || σ.finishedPending

/-- One step. A callback runs only for a pending request, `onKeysRendered` only for a pending
`finished()`; `setFuture` makes the watcher follow the new future alone, so that one
`finished()` is pending however many passes were dispatched. -/
def step (σ : Session) : Event → Option Session
  | Event.loadKeys => some { σ with item := σ.item.loadKeys }
  | Event.unload => some { σ with item := σ.item.unload }
  | Event.reload => some { σ with item := σ.item.reload }
  | Event.keysDelivered operations rawKeys =>
    if σ.fetchOutstanding then
      some { item := σ.item.loadKeysCallback operations rawKeys
             callbacksRun := σ.callbacksRun + 1
             finishedPending := if rawKeys.length = 0 then σ.finishedPending else true }
    else none
  | Event.renderFinished =>
    if σ.finishedPending then
      (σ.item.onKeysRendered).map (fun it => { σ with item := it, finishedPending := false })
    else none

/-- A sequence of steps, `none` as soon as one of them cannot happen. -/
def run (σ : Session) : List Event → Option Session
  | [] => some σ
  | e :: es => (σ.step e).bind (fun τ => run τ es)

/-- The sequences in which `loadKeys` and `reload` are only called while no fetch and no render
pass is outstanding. -/
def runGuarded (σ : Session) : List Event → Option Session
  | [] => some σ
  | e :: es =>
    match e with
    | Event.loadKeys | Event.reload =>
      if σ.outstanding then none else (σ.step e).bind (fun τ => runGuarded τ es)
    | _ => (σ.step e).bind (fun τ => runGuarded τ es)

end Session


/-! ## Facts about `QString` used by the recursion -/

theorem QString.find_bound (sep : QString) :
    ∀ (s : QString) (i : Nat), QString.find sep s = some i → i + sep.length ≤ s.length := by
  intro s
  induction s with
  | nil =>
    intro i h
    cases sep with
    | nil => simp [QString.find] at h; subst h; simp
    | cons a t => simp [QString.find, List.isPrefixOf] at h
  | cons c cs ih =>
    intro i h
    unfold QString.find at h
    split at h
    · rename_i hp
      have hpre := List.isPrefixOf_iff_prefix.mp hp
      have := hpre.length_le
      simp at h
      subst h
      simpa using this
    · cases hf : QString.find sep cs with
      | none => simp [hf] at h
      | some j =>
        simp [hf] at h
        subst h
        have := ih j hf
        simp
        omega

theorem QString.indexOf_of_contains (s sep : QString) (h : QString.contains s sep = true) :
    ∃ i : Nat, QString.find sep s = some i ∧ QString.indexOf s sep = (i : Int) := by
  unfold QString.contains QString.indexOf at *
  cases hf : QString.find sep s with
  | none => simp [hf] at h
  | some i => exact ⟨i, rfl, rfl⟩

theorem QString.mid_from (s : QString) (p : Nat) (h : p ≤ s.length) :
    QString.mid s (p : Int) (-1) = s.drop p := by
  unfold QString.mid
  have h1 : ¬ ((p : Int) > (s.length : Int)) := by omega
  have h2 : ¬ ((p : Int) < 0) := by omega
  simp [h1, h2]

theorem QString.mid_left (s : QString) (n : Nat) (h : n ≤ s.length) :
    QString.mid s 0 (n : Int) = s.take n := by
  unfold QString.mid
  have h1 : ¬ ((0 : Int) > (s.length : Int)) := by omega
  have h2 : ¬ ((0 : Int) < 0) := by omega
  have h3 : ¬ ((n : Int) < 0 ∨ (n : Int) > (s.length : Int) - 0) := by omega
  rw [if_neg h1, if_neg h2, if_neg h3]
  simp

/-- On the branch that recurses (separator present and non-empty) the part handed to the
recursive call is strictly shorter than the part received. -/
theorem QString.rest_length_lt (s sep : QString)
    (h : ¬ ((!QString.contains s sep || sep.isEmpty) = true)) :
    (QString.mid s (QString.indexOf s sep + sep.length) (-1)).length < s.length := by
  simp only [Bool.or_eq_true, Bool.not_eq_true', not_or, Bool.not_eq_false] at h
  obtain ⟨hc, he⟩ := h
  obtain ⟨i, hf, hi⟩ := QString.indexOf_of_contains s sep hc
  have hb := QString.find_bound sep s i hf
  have hpos : 0 < sep.length := by
    cases sep with
    | nil => simp at he
    | cons a t => simp
  rw [hi]
  have hcast : ((i : Int) + (sep.length : Int)) = ((i + sep.length : Nat) : Int) := by
    push_cast; rfl
  rw [hcast, QString.mid_from s (i + sep.length) hb]
  simp
  omega


/-! ## Evaluation form -/

theorem renderNamaspacedKey_eq_fuel (sep : QString) (dbIndex : Int) (fullKey : QString) :
    ∀ (fuel : Nat) (notProcessedKeyPart : QString) (level : List TreeItem),
      notProcessedKeyPart.length < fuel →
      renderNamaspacedKey sep dbIndex fullKey notProcessedKeyPart level =
        renderNamaspacedKeyFuel sep dbIndex fullKey fuel notProcessedKeyPart level := by
  intro fuel
  induction fuel with
  | zero => intro np level h; omega
  | succ n ih =>
    intro np level h
    rw [renderNamaspacedKey, renderNamaspacedKeyFuel]
    by_cases hc : (!QString.contains np sep || sep.isEmpty) = true
    · simp only [hc, dif_pos, if_pos]
    · have hlt := QString.rest_length_lt np sep hc
      have hrest : (QString.mid np (QString.indexOf np sep + sep.length) (-1)).length < n := by
        omega
      have hfun : (fun childs => renderNamaspacedKey sep dbIndex fullKey
            (QString.mid np (QString.indexOf np sep + sep.length) (-1)) childs) =
          renderNamaspacedKeyFuel sep dbIndex fullKey n
            (QString.mid np (QString.indexOf np sep + sep.length) (-1)) := by
        funext childs
        exact ih _ childs hrest
      rw [dif_neg hc, if_neg hc]
      simp only [hfun, ih _ [] hrest]

theorem renderKeys_eq_fuel (keys : List QString) (filter : QRegExp) (sep : QString)
    (dbIndex : Int) :
    renderKeys keys filter sep dbIndex = renderKeysFuel keys filter sep dbIndex := by
  unfold renderKeys renderKeysFuel
  congr 1
  funext result rawKey
  rw [renderNamaspacedKey_eq_fuel sep dbIndex rawKey (rawKey.length + 1) rawKey result
    (Nat.lt_succ_self _)]

/-! ## How one call of `renderNamaspacedKey` changes a level -/

theorem leafKeys_append (a b : List TreeItem) :
    leafKeys (a ++ b) = leafKeys a ++ leafKeys b := by
  induction a with
  | nil => simp [leafKeys]
  | cons c cs ih => simp [leafKeys, ih]

theorem innerLevels_append (a b : List TreeItem) :
    innerLevels (a ++ b) = innerLevels a ++ innerLevels b := by
  induction a with
  | nil => simp [innerLevels]
  | cons c cs ih => simp [innerLevels, ih]

theorem namespaceNames_append (a b : List TreeItem) :
    namespaceNames (a ++ b) = namespaceNames a ++ namespaceNames b := by
  induction a with
  | nil => simp [namespaceNames]
  | cons c cs ih => cases c <;> simp [namespaceNames, ih]

theorem modifyAt_length_append (f : TreeItem → TreeItem) (pre : List TreeItem) (c : TreeItem)
    (post : List TreeItem) :
    modifyAt f pre.length (pre ++ c :: post) = pre ++ f c :: post := by
  induction pre with
  | nil => simp [modifyAt]
  | cons x xs ih => simp [modifyAt, ih]

/-- When the lookup loop finds an item, it is a namespace item named `first`, and no
namespace item before it bears that name. -/
theorem findNamespaceItem_some (first : QString) :
    ∀ (level : List TreeItem) (i : Nat), findNamespaceItem first level = some i →
      ∃ pre cs post, level = pre ++ TreeItem.NamespaceItem first cs :: post ∧
        pre.length = i ∧ first ∉ namespaceNames pre := by
  intro level
  induction level with
  | nil => intro i h; simp [findNamespaceItem] at h
  | cons c rest ih =>
    intro i h
    unfold findNamespaceItem at h
    split at h
    · rename_i hm
      cases c with
      | KeyItem p d => simp [TreeItem.isNamespaceItem] at hm
      | NamespaceItem n cs =>
        simp [TreeItem.getDisplayName, TreeItem.isNamespaceItem] at hm
        simp at h
        subst hm
        exact ⟨[], cs, rest, by simp, by simpa using h, by simp [namespaceNames]⟩
    · rename_i hm
      cases hf : findNamespaceItem first rest with
      | none => simp [hf] at h
      | some j =>
        simp [hf] at h
        obtain ⟨pre, cs, post, hl, hlen, hnot⟩ := ih j hf
        refine ⟨c :: pre, cs, post, by simp [hl], by simp [hlen, h], ?_⟩
        cases c with
        | KeyItem p d => simpa [namespaceNames] using hnot
        | NamespaceItem n cs2 =>
          simp [TreeItem.getDisplayName, TreeItem.isNamespaceItem] at hm
          simp only [namespaceNames, List.mem_cons, not_or]
          exact ⟨fun e => hm e.symm, hnot⟩

/-- When the lookup loop finds nothing, no namespace item of the level is named `first`. -/
theorem findNamespaceItem_none (first : QString) :
    ∀ (level : List TreeItem), findNamespaceItem first level = none →
      first ∉ namespaceNames level := by
  intro level
  induction level with
  | nil => intro _; simp [namespaceNames]
  | cons c rest ih =>
    intro h
    unfold findNamespaceItem at h
    split at h
    · simp at h
    · rename_i hm
      cases hf : findNamespaceItem first rest with
      | some j => simp [hf] at h
      | none =>
        have hr := ih hf
        cases c with
        | KeyItem p d => simpa [namespaceNames] using hr
        | NamespaceItem n cs2 =>
          simp [TreeItem.getDisplayName, TreeItem.isNamespaceItem] at hm
          simp only [namespaceNames, List.mem_cons, not_or]
          exact ⟨fun e => hm e.symm, hr⟩

/-- The leaf branch (lines 193-203). -/
theorem renderNamaspacedKey_leaf (sep : QString) (dbIndex : Int) (fullKey np : QString)
    (level : List TreeItem) (h : (!QString.contains np sep || sep.isEmpty) = true) :
    renderNamaspacedKey sep dbIndex fullKey np level =
      level ++ [TreeItem.KeyItem fullKey dbIndex] := by
  rw [renderNamaspacedKey, dif_pos h]

/-- The namespace branch (lines 205-233): either the level already holds a namespace item of
that name, the first such receives the rest of the key and nothing else changes; or it holds
none, and a new namespace item holding the rendered rest is appended. -/
theorem renderNamaspacedKey_step (sep : QString) (dbIndex : Int) (fullKey np : QString)
    (level : List TreeItem) (h : ¬ (!QString.contains np sep || sep.isEmpty) = true) :
    (∃ pre cs post, level = pre ++ TreeItem.NamespaceItem (firstSegment np sep) cs :: post ∧
        firstSegment np sep ∉ namespaceNames pre ∧
        renderNamaspacedKey sep dbIndex fullKey np level =
          pre ++ TreeItem.NamespaceItem (firstSegment np sep)
            (renderNamaspacedKey sep dbIndex fullKey (restAfter np sep) cs) :: post) ∨
    (firstSegment np sep ∉ namespaceNames level ∧
        renderNamaspacedKey sep dbIndex fullKey np level =
          level ++ [TreeItem.NamespaceItem (firstSegment np sep)
            (renderNamaspacedKey sep dbIndex fullKey (restAfter np sep) [])]) := by
  rw [renderNamaspacedKey, dif_neg h]
  show (∃ pre cs post, level = pre ++ TreeItem.NamespaceItem (firstSegment np sep) cs :: post ∧
        firstSegment np sep ∉ namespaceNames pre ∧
        (match findNamespaceItem (firstSegment np sep) level with
          | some i =>
            modifyAt (withChilds (fun childs =>
              renderNamaspacedKey sep dbIndex fullKey (restAfter np sep) childs)) i level
          | none =>
            level ++ [TreeItem.NamespaceItem (firstSegment np sep)
              (renderNamaspacedKey sep dbIndex fullKey (restAfter np sep) [])]) =
          pre ++ TreeItem.NamespaceItem (firstSegment np sep)
            (renderNamaspacedKey sep dbIndex fullKey (restAfter np sep) cs) :: post) ∨
    (firstSegment np sep ∉ namespaceNames level ∧
        (match findNamespaceItem (firstSegment np sep) level with
          | some i =>
            modifyAt (withChilds (fun childs =>
              renderNamaspacedKey sep dbIndex fullKey (restAfter np sep) childs)) i level
          | none =>
            level ++ [TreeItem.NamespaceItem (firstSegment np sep)
              (renderNamaspacedKey sep dbIndex fullKey (restAfter np sep) [])]) =
          level ++ [TreeItem.NamespaceItem (firstSegment np sep)
            (renderNamaspacedKey sep dbIndex fullKey (restAfter np sep) [])])
  cases hf : findNamespaceItem (firstSegment np sep) level with
  | none =>
    right
    exact ⟨findNamespaceItem_none _ _ hf, rfl⟩
  | some i =>
    left
    obtain ⟨pre, cs, post, hl, hlen, hnot⟩ := findNamespaceItem_some _ _ _ hf
    refine ⟨pre, cs, post, hl, hnot, ?_⟩
    subst hlen
    subst hl
    simp only [modifyAt_length_append, withChilds]

/-- Induction over the calls of `renderNamaspacedKey`: a relation between the part of the key
still to process, the level before and the level after holds of every call as soon as it holds
of the leaf branch and is passed on by the two ways of descending into a namespace. -/
theorem renderNamaspacedKey_cases (sep : QString) (dbIndex : Int) (fullKey : QString)
    (P : QString → List TreeItem → List TreeItem → Prop)
    (hLeaf : ∀ np level, (!QString.contains np sep || sep.isEmpty) = true →
      P np level (level ++ [TreeItem.KeyItem fullKey dbIndex]))
    (hFound : ∀ np pre cs post, ¬ (!QString.contains np sep || sep.isEmpty) = true →
      firstSegment np sep ∉ namespaceNames pre →
      P (restAfter np sep) cs (renderNamaspacedKey sep dbIndex fullKey (restAfter np sep) cs) →
      P np (pre ++ TreeItem.NamespaceItem (firstSegment np sep) cs :: post)
        (pre ++ TreeItem.NamespaceItem (firstSegment np sep)
          (renderNamaspacedKey sep dbIndex fullKey (restAfter np sep) cs) :: post))
    (hNew : ∀ np level, ¬ (!QString.contains np sep || sep.isEmpty) = true →
      firstSegment np sep ∉ namespaceNames level →
      P (restAfter np sep) [] (renderNamaspacedKey sep dbIndex fullKey (restAfter np sep) []) →
      P np level (level ++ [TreeItem.NamespaceItem (firstSegment np sep)
          (renderNamaspacedKey sep dbIndex fullKey (restAfter np sep) [])])) :
    ∀ (np : QString) (level : List TreeItem),
      P np level (renderNamaspacedKey sep dbIndex fullKey np level) := by
  suffices H : ∀ (n : Nat) (np : QString), np.length = n → ∀ level,
      P np level (renderNamaspacedKey sep dbIndex fullKey np level) from fun np => H _ np rfl
  intro n
  induction n using Nat.strong_induction_on with
  | _ n ih =>
    intro np hn level
    by_cases hc : (!QString.contains np sep || sep.isEmpty) = true
    · rw [renderNamaspacedKey_leaf sep dbIndex fullKey np level hc]
      exact hLeaf np level hc
    · have hlt : (restAfter np sep).length < n := by
        have := QString.rest_length_lt np sep hc
        unfold restAfter
        omega
      rcases renderNamaspacedKey_step sep dbIndex fullKey np level hc with
        ⟨pre, cs, post, hl, hnot, heq⟩ | ⟨hnot, heq⟩
      · rw [heq, hl]
        exact hFound np pre cs post hc hnot (ih _ hlt (restAfter np sep) rfl cs)
      · rw [heq]
        exact hNew np level hc hnot (ih _ hlt (restAfter np sep) rfl [])

/-! ## Sorting -/

theorem sortKeys_perm (K : List QString) : (sortKeys K).Perm K :=
  List.perm_insertionSort _ K

theorem sortKeys_sorted (K : List QString) : (sortKeys K).Sorted (· ≤ ·) :=
  List.sorted_insertionSort _ K

theorem sortKeys_congr {K K' : List QString} (h : K'.Perm K) : sortKeys K' = sortKeys K :=
  List.eq_of_perm_of_sorted ((sortKeys_perm K').trans (h.trans (sortKeys_perm K).symm))
    (sortKeys_sorted K') (sortKeys_sorted K)

/-! ## Properties of the rendered tree -/

/-- One call of `renderNamaspacedKey` adds the full key, once, to the keys stored in the
leaves below the level, and removes none. -/
theorem leafKeys_renderNamaspacedKey (sep : QString) (dbIndex : Int) (fullKey : QString) :
    ∀ (np : QString) (level : List TreeItem),
      (leafKeys (renderNamaspacedKey sep dbIndex fullKey np level)).Perm
        (fullKey :: leafKeys level) := by
  apply renderNamaspacedKey_cases sep dbIndex fullKey
    (fun _ level result => (leafKeys result).Perm (fullKey :: leafKeys level))
  · intro np level _
    simp only [leafKeys_append, leafKeys, TreeItem.leafKeys, List.append_nil]
    exact List.perm_append_singleton _ _
  · intro np pre cs post _ _ ih
    simp only [leafKeys_append, leafKeys, TreeItem.leafKeys]
    have h1 : (leafKeys pre ++ (leafKeys (renderNamaspacedKey sep dbIndex fullKey
        (restAfter np sep) cs) ++ leafKeys post)).Perm
        (leafKeys pre ++ (fullKey :: leafKeys cs ++ leafKeys post)) :=
      List.Perm.append_left _ (List.Perm.append_right _ ih)
    refine h1.trans ?_
    simp only [List.cons_append]
    exact List.perm_middle
  · intro np level _ _ ih
    simp only [leafKeys_append, leafKeys, TreeItem.leafKeys, List.append_nil] at ih ⊢
    have h1 : (leafKeys level ++ leafKeys (renderNamaspacedKey sep dbIndex fullKey
        (restAfter np sep) [])).Perm (leafKeys level ++ [fullKey]) :=
      List.Perm.append_left _ ih
    exact h1.trans (List.perm_append_singleton _ _)

/-- The loop of `renderKeys`, started on any `result`, adds to the stored keys exactly the
keys that pass the filter. -/
theorem leafKeys_renderLoop (filter : QRegExp) (sep : QString) (dbIndex : Int) :
    ∀ (keys : List QString) (result : List TreeItem),
      (leafKeys (keys.foldl
        (fun result rawKey =>
          if (!filter.isEmpty && !QString.containsRx rawKey filter) = true then result
          else renderNamaspacedKey sep dbIndex rawKey rawKey result)
        result)).Perm (leafKeys result ++ keys.filter (passesFilter filter)) := by
  intro keys
  induction keys with
  | nil => intro result; simp
  | cons k ks ih =>
    intro result
    rw [List.foldl_cons]
    refine (ih _).trans ?_
    by_cases hk : (!filter.isEmpty && !QString.containsRx k filter) = true
    · have hp : passesFilter filter k = false := by simp [passesFilter, hk]
      simp only [hk, if_true, List.filter_cons, hp]
      exact List.Perm.refl _
    · have hp : passesFilter filter k = true := by
        unfold passesFilter
        cases h1 : filter.isEmpty <;> cases h2 : QString.containsRx k filter <;> simp_all
      simp only [hk, if_false, List.filter_cons, hp, if_true]
      have h1 := leafKeys_renderNamaspacedKey sep dbIndex k k result
      refine (List.Perm.append_right _ h1).trans ?_
      simp only [List.cons_append]
      exact List.perm_middle.symm

/-- C1. Leaf fidelity. For every key list, separator, filter and database index, the
multiset of keys stored in the leaves of the tree `renderKeys` returns, leaves at every depth
counted, is the multiset of the keys of the input that pass the filter: each retained key is
stored unmodified in exactly as many leaves as it has occurrences. With an empty filter
pattern that is the multiset of all input keys. -/
theorem leaf_fidelity (K : List QString) (filter : QRegExp) (sep : QString) (dbIndex : Int) :
    ((leafKeys (renderKeys K filter sep dbIndex) : List QString) : Multiset QString) =
        ((K.filter (passesFilter filter) : List QString) : Multiset QString) ∧
    (filter.isEmpty = true →
      ((leafKeys (renderKeys K filter sep dbIndex) : List QString) : Multiset QString) =
        (K : Multiset QString)) := by
  have hperm : (leafKeys (renderKeys K filter sep dbIndex)).Perm
      (K.filter (passesFilter filter)) := by
    unfold renderKeys
    refine (leafKeys_renderLoop filter sep dbIndex (sortKeys K) []).trans ?_
    simp only [leafKeys, List.nil_append]
    exact (sortKeys_perm K).filter _
  refine ⟨Multiset.coe_eq_coe.mpr hperm, ?_⟩
  intro he
  have hall : K.filter (passesFilter filter) = K := by
    rw [List.filter_eq_self]
    intro a _
    simp [passesFilter, he]
  rw [← hall]
  exact Multiset.coe_eq_coe.mpr (by rw [hall]; rw [hall] at hperm; exact hperm)

/-- C1 at a concrete input with a repeated key: both occurrences of `a:b` are kept. -/
theorem leaf_fidelity_witness :
    ((leafKeys (renderKeys [QString.ofAscii "a:b", QString.ofAscii "c", QString.ofAscii "a:b"]
        QRegExp.default (QString.ofAscii ":") 0) : List QString) : Multiset QString) =
      (([QString.ofAscii "a:b", QString.ofAscii "c", QString.ofAscii "a:b"] : List QString) :
        Multiset QString) :=
  (leaf_fidelity _ QRegExp.default _ _).2 rfl

/-- One call of `renderNamaspacedKey` keeps every sibling list free of two namespace items
with the same name. -/
theorem nodup_renderNamaspacedKey (sep : QString) (dbIndex : Int) (fullKey : QString) :
    ∀ (np : QString) (level : List TreeItem),
      (∀ L ∈ allLevels level, (namespaceNames L).Nodup) →
      ∀ L ∈ allLevels (renderNamaspacedKey sep dbIndex fullKey np level),
        (namespaceNames L).Nodup := by
  apply renderNamaspacedKey_cases sep dbIndex fullKey
    (fun _ level result => (∀ L ∈ allLevels level, (namespaceNames L).Nodup) →
      ∀ L ∈ allLevels result, (namespaceNames L).Nodup)
  · intro np level _ H L hL
    simp only [allLevels, innerLevels_append, innerLevels, TreeItem.innerLevels,
      List.append_nil, List.mem_cons] at hL
    rcases hL with rfl | hL
    · have := H level (by simp [allLevels])
      simpa [namespaceNames_append, namespaceNames] using this
    · exact H L (by simp [allLevels, hL])
  · intro np pre cs post _ _ ih H L hL
    have Hcs : ∀ L ∈ allLevels cs, (namespaceNames L).Nodup := by
      intro M hM
      apply H M
      simp only [allLevels, List.mem_cons] at hM
      simp only [allLevels, innerLevels_append, innerLevels, TreeItem.innerLevels,
        List.mem_cons, List.mem_append]
      rcases hM with rfl | hM
      · exact Or.inr (Or.inr (Or.inl (Or.inl rfl)))
      · exact Or.inr (Or.inr (Or.inl (Or.inr hM)))
    simp only [allLevels, innerLevels_append, innerLevels, TreeItem.innerLevels,
      List.mem_cons, List.mem_append] at hL
    rcases hL with rfl | hL | (rfl | hL) | hL
    · have := H (pre ++ TreeItem.NamespaceItem (firstSegment np sep) cs :: post)
        (by simp [allLevels])
      simpa [namespaceNames_append, namespaceNames] using this
    · exact H L (by simp [allLevels, innerLevels_append, hL])
    · exact ih Hcs _ (by simp [allLevels])
    · exact ih Hcs L (by simp [allLevels, hL])
    · exact H L (by simp [allLevels, innerLevels_append, innerLevels, hL])
  · intro np level _ hnot ih H L hL
    have Hnil : ∀ L ∈ allLevels ([] : List TreeItem), (namespaceNames L).Nodup := by
      intro M hM
      simp only [allLevels, innerLevels, List.mem_singleton] at hM
      subst hM
      simp [namespaceNames]
    simp only [allLevels, innerLevels_append, innerLevels, TreeItem.innerLevels,
      List.append_nil, List.mem_cons, List.mem_append] at hL
    rcases hL with rfl | hL | rfl | hL
    · have hlev := H level (by simp [allLevels])
      simp only [namespaceNames_append, namespaceNames]
      exact List.Nodup.append hlev (List.nodup_singleton _)
        (fun a ha hb => by
          simp only [List.mem_singleton] at hb
          exact hnot (hb ▸ ha))
    · exact H L (by simp [allLevels, hL])
    · exact ih Hnil _ (by simp [allLevels])
    · exact ih Hnil L (by simp [allLevels, hL])

/-- The loop of `renderKeys` keeps every sibling list free of two namespace items with the
same name. -/
theorem nodup_renderLoop (filter : QRegExp) (sep : QString) (dbIndex : Int) :
    ∀ (keys : List QString) (result : List TreeItem),
      (∀ L ∈ allLevels result, (namespaceNames L).Nodup) →
      ∀ L ∈ allLevels (keys.foldl
        (fun result rawKey =>
          if (!filter.isEmpty && !QString.containsRx rawKey filter) = true then result
          else renderNamaspacedKey sep dbIndex rawKey rawKey result)
        result), (namespaceNames L).Nodup := by
  intro keys
  induction keys with
  | nil => intro result H; simpa using H
  | cons k ks ih =>
    intro result H
    rw [List.foldl_cons]
    apply ih
    by_cases hk : (!filter.isEmpty && !QString.containsRx k filter) = true
    · simpa only [hk, if_true] using H
    · simp only [hk, if_false]
      exact nodup_renderNamaspacedKey sep dbIndex k k result H

theorem mem_namespaceNames (n : QString) (cs : List TreeItem) :
    ∀ (L : List TreeItem), TreeItem.NamespaceItem n cs ∈ L → n ∈ namespaceNames L := by
  intro L
  induction L with
  | nil => intro h; simp at h
  | cons c rest ih =>
    intro h
    rcases List.mem_cons.mp h with rfl | hr
    · simp [namespaceNames]
    · cases c with
      | KeyItem p d => simpa [namespaceNames] using ih hr
      | NamespaceItem m ms => simp [namespaceNames, ih hr]

/-- Distinct names in `namespaceNames` means: no two items of the list are both namespace items
and display the same name. -/
theorem pairwise_of_nodup_namespaceNames :
    ∀ (L : List TreeItem), (namespaceNames L).Nodup →
      L.Pairwise (fun a b => a.isNamespaceItem = true → b.isNamespaceItem = true →
        a.getDisplayName ≠ b.getDisplayName) := by
  intro L
  induction L with
  | nil => intro _; exact List.Pairwise.nil
  | cons c rest ih =>
    intro h
    cases c with
    | KeyItem p d =>
      refine List.Pairwise.cons ?_ (ih (by simpa [namespaceNames] using h))
      intro b _ ha
      simp [TreeItem.isNamespaceItem] at ha
    | NamespaceItem n cs =>
      simp only [namespaceNames, List.nodup_cons] at h
      refine List.Pairwise.cons ?_ (ih h.2)
      intro b hb _ hbn
      cases b with
      | KeyItem p d => simp [TreeItem.isNamespaceItem] at hbn
      | NamespaceItem m ms =>
        simp only [TreeItem.getDisplayName]
        intro e
        subst e
        exact h.1 (mem_namespaceNames _ ms rest hb)

/-- C2. Namespace-node uniqueness. For every key list, filter, separator and database index,
in every sibling list of the tree `renderKeys` returns (the top-level sequence and the child
list of every namespace item, at any depth) the display names of the namespace items are
pairwise distinct: the list of those names has no duplicate, and no two items of the sibling
list are both namespace items with equal display names. -/
theorem namespace_uniqueness (K : List QString) (filter : QRegExp) (sep : QString)
    (dbIndex : Int) :
    ∀ L ∈ allLevels (renderKeys K filter sep dbIndex),
      (namespaceNames L).Nodup ∧
      L.Pairwise (fun a b => a.isNamespaceItem = true → b.isNamespaceItem = true →
        a.getDisplayName ≠ b.getDisplayName) := by
  have key : ∀ L ∈ allLevels (renderKeys K filter sep dbIndex), (namespaceNames L).Nodup := by
    unfold renderKeys
    apply nodup_renderLoop
    intro M hM
    simp only [allLevels, innerLevels, List.mem_singleton] at hM
    subst hM
    simp [namespaceNames]
  intro L hL
  exact ⟨key L hL, pairwise_of_nodup_namespaceNames L (key L hL)⟩

/-- C2 at a concrete input: the three keys `a:x`, `b:y`, `a:z` give top-level namespaces with
distinct names. -/
theorem namespace_uniqueness_witness :
    (namespaceNames (renderKeys [QString.ofAscii "a:x", QString.ofAscii "b:y",
      QString.ofAscii "a:z"] QRegExp.default (QString.ofAscii ":") 0)).Nodup :=
  (namespace_uniqueness _ _ _ _ _ (List.mem_cons_self _ _)).1

/-- C3. Input-order independence and determinism. For every key list `K`, every
rearrangement `K2` of it, every filter, separator and database index, `renderKeys` returns
the same tree for `K2` as for `K`: the same items of the same kinds with the same names and
stored keys in the same order at every level. -/
theorem render_order_independent (K K2 : List QString) (filter : QRegExp) (sep : QString)
    (dbIndex : Int) (h : K2.Perm K) :
    renderKeys K2 filter sep dbIndex = renderKeys K filter sep dbIndex := by
  unfold renderKeys
  rw [sortKeys_congr h]

/-- C3 at a concrete input: three keys in two different orders. -/
theorem render_order_independent_witness :
    renderKeys [QString.ofAscii "b:1", QString.ofAscii "a", QString.ofAscii "b:0"]
        QRegExp.default (QString.ofAscii ":") 0 =
      renderKeys [QString.ofAscii "a", QString.ofAscii "b:0", QString.ofAscii "b:1"]
        QRegExp.default (QString.ofAscii ":") 0 :=
  render_order_independent _ _ _ _ _
    ((List.Perm.swap _ _ _).trans (List.Perm.cons _ (List.Perm.swap _ _ _)))

/-- C4. The example of the specification. The keys `user:1:name`, `user:1:age`,
`user:2:name`, `counter` with separator `:` and no filter render to two top-level items: the
leaf for `counter`, then the namespace `user`, whose two children are the namespace `1`
holding the leaves for `user:1:age` and `user:1:name` and the namespace `2` holding the leaf
for `user:2:name`. -/
theorem example_tree (dbIndex : Int) :
    renderKeys
        [QString.ofAscii "user:1:name", QString.ofAscii "user:1:age",
          QString.ofAscii "user:2:name", QString.ofAscii "counter"]
        QRegExp.default (QString.ofAscii ":") dbIndex =
      [TreeItem.KeyItem (QString.ofAscii "counter") dbIndex,
        TreeItem.NamespaceItem (QString.ofAscii "user")
          [TreeItem.NamespaceItem (QString.ofAscii "1")
              [TreeItem.KeyItem (QString.ofAscii "user:1:age") dbIndex,
                TreeItem.KeyItem (QString.ofAscii "user:1:name") dbIndex],
            TreeItem.NamespaceItem (QString.ofAscii "2")
              [TreeItem.KeyItem (QString.ofAscii "user:2:name") dbIndex]]] := by
  rw [renderKeys_eq_fuel]
  rfl

/-- With an empty separator and an empty filter pattern the loop of `renderKeys` appends one
leaf per key, in the order of the keys. -/
theorem renderLoop_empty_separator (filter : QRegExp) (dbIndex : Int)
    (hf : filter.isEmpty = true) :
    ∀ (keys : List QString) (result : List TreeItem),
      keys.foldl
        (fun result rawKey =>
          if (!filter.isEmpty && !QString.containsRx rawKey filter) = true then result
          else renderNamaspacedKey [] dbIndex rawKey rawKey result)
        result = result ++ keys.map (fun k => TreeItem.KeyItem k dbIndex) := by
  intro keys
  induction keys with
  | nil => intro result; simp
  | cons k ks ih =>
    intro result
    rw [List.foldl_cons, ih]
    have hk : ¬ (!filter.isEmpty && !QString.containsRx k filter) = true := by simp [hf]
    rw [if_neg hk, renderNamaspacedKey_leaf [] dbIndex k k result (by simp)]
    simp

/-- C5. Empty separator disables grouping. With the empty separator and an empty filter
pattern, `renderKeys` returns one top-level leaf per input key and nothing else, the leaves
storing the full keys in ascending order: the stored keys are the sorted rearrangement of the
input. -/
theorem empty_separator_leaves (K : List QString) (filter : QRegExp) (dbIndex : Int)
    (hf : filter.isEmpty = true) :
    renderKeys K filter [] dbIndex = (sortKeys K).map (fun k => TreeItem.KeyItem k dbIndex) ∧
    (sortKeys K).Sorted (· ≤ ·) ∧ (sortKeys K).Perm K := by
  refine ⟨?_, sortKeys_sorted K, sortKeys_perm K⟩
  unfold renderKeys
  rw [renderLoop_empty_separator filter dbIndex hf]
  simp

/-- C5 at the four example keys: four top-level leaves, each holding its full key. -/
theorem empty_separator_leaves_witness :
    renderKeys
        [QString.ofAscii "user:1:name", QString.ofAscii "user:1:age",
          QString.ofAscii "user:2:name", QString.ofAscii "counter"]
        QRegExp.default [] 0 =
      [TreeItem.KeyItem (QString.ofAscii "counter") 0,
        TreeItem.KeyItem (QString.ofAscii "user:1:age") 0,
        TreeItem.KeyItem (QString.ofAscii "user:1:name") 0,
        TreeItem.KeyItem (QString.ofAscii "user:2:name") 0] :=
  (empty_separator_leaves _ QRegExp.default 0 rfl).1.trans rfl

/-! ## The load lifecycle -/

/-- For the indices an `int` can hold, `getIndex` is `m_index`. -/
theorem DatabaseItem.getIndex_of_lt (s : DatabaseItem) (h : s.m_index < 2 ^ 31) :
    s.getIndex = (s.m_index : Int) := by
  have h1 : s.m_index % 2 ^ 32 = s.m_index := Nat.mod_eq_of_lt (by omega)
  unfold DatabaseItem.getIndex
  rw [h1, if_pos h]

/-- C6. Successful load. From a node without children, `loadKeys` sets the lock, emits
`updateIcon` and requests the keys; when the callback then receives a non-empty key list and
the render pass finishes, `onKeysRendered` runs and leaves the node with children exactly
`renderKeys` of those keys (separator as the backend reports it, empty filter), unlocked, and
with exactly `updateIcon` followed by one `keysLoaded` of this index emitted since the start.
The replacement is full: whatever children a node holds, `onKeysRendered` leaves it with the
result of the watched pass and nothing of what it held. -/
theorem successful_load (s : DatabaseItem) (operations : Operations) (K : List QString)
    (hEmpty : s.m_keys = []) (hK : K ≠ []) :
    s.loadKeys.m_locked = true ∧
    s.loadKeys.emitted = s.emitted ++ [Signal.updateIcon s.m_index] ∧
    s.loadKeys.keyRequests = s.keyRequests ++ [s.m_index] ∧
    (∀ (u : DatabaseItem) (r : List TreeItem), u.m_keysLoadingWatcher = some r →
      ∃ v, u.onKeysRendered = some v ∧ v.m_keys = r ∧ v.m_locked = false ∧
        v.emitted = u.emitted ++ [Signal.keysLoaded u.m_index]) ∧
    ∃ t, (s.loadKeys.loadKeysCallback operations K).onKeysRendered = some t ∧
      t.m_keys = renderKeys K QRegExp.default operations.getNamespaceSeparator s.getIndex ∧
      t.m_locked = false ∧
      t.emitted = s.emitted ++ [Signal.updateIcon s.m_index, Signal.keysLoaded s.m_index] ∧
      t.emitted.count (Signal.keysLoaded s.m_index) =
        s.emitted.count (Signal.keysLoaded s.m_index) + 1 := by
  have hK0 : ¬ K.length = 0 := by
    intro h
    exact hK (List.length_eq_zero.mp h)
  refine ⟨?_, ?_, ?_, ?_, ?_⟩
  · simp [DatabaseItem.loadKeys, hEmpty]
  · simp [DatabaseItem.loadKeys, hEmpty]
  · simp [DatabaseItem.loadKeys, hEmpty]
  · intro u r hu
    simp [DatabaseItem.onKeysRendered, hu]
  · simp [DatabaseItem.loadKeys, DatabaseItem.loadKeysCallback, DatabaseItem.onKeysRendered,
      DatabaseItem.getIndex, hEmpty, hK0, List.count_append]

/-- C6 at a concrete input: a fresh node for database 3 loading the single key `a:b`. -/
theorem successful_load_witness :
    ∃ t, (((DatabaseItem.construct (QString.ofAscii "db3") 3 5).loadKeys.loadKeysCallback
        ⟨QString.ofAscii ":"⟩ [QString.ofAscii "a:b"]).onKeysRendered = some t ∧
      t.m_keys = [TreeItem.NamespaceItem (QString.ofAscii "a")
        [TreeItem.KeyItem (QString.ofAscii "a:b") 3]] ∧
      t.m_locked = false ∧
      t.emitted = [Signal.updateIcon 3, Signal.keysLoaded 3]) := by
  obtain ⟨_, _, _, _, t, h1, h2, h3, h4, _⟩ :=
    successful_load (DatabaseItem.construct (QString.ofAscii "db3") 3 5) ⟨QString.ofAscii ":"⟩
      [QString.ofAscii "a:b"] rfl (by simp)
  refine ⟨t, h1, ?_, h3, h4⟩
  rw [h2, renderKeys_eq_fuel]
  rfl

/-- C7. Empty fetch result. From a node without children, `loadKeys` (which locks the node)
followed by the callback receiving no keys leaves the node without children and unlocked,
dispatches no render pass (the watcher and the record of runs are untouched) and emits nothing
beyond the `updateIcon` of `loadKeys`, in particular no `keysLoaded`. -/
theorem empty_fetch_result (s : DatabaseItem) (operations : Operations)
    (hEmpty : s.m_keys = []) :
    s.loadKeys.m_locked = true ∧
    (s.loadKeys.loadKeysCallback operations []).m_keys = [] ∧
    (s.loadKeys.loadKeysCallback operations []).m_locked = false ∧
    (s.loadKeys.loadKeysCallback operations []).renderRuns = s.renderRuns ∧
    (s.loadKeys.loadKeysCallback operations []).m_keysLoadingWatcher =
      s.m_keysLoadingWatcher ∧
    (s.loadKeys.loadKeysCallback operations []).emitted =
      s.emitted ++ [Signal.updateIcon s.m_index] ∧
    (∀ i, (s.loadKeys.loadKeysCallback operations []).emitted.count (Signal.keysLoaded i) =
      s.emitted.count (Signal.keysLoaded i)) := by
  simp [DatabaseItem.loadKeys, DatabaseItem.loadKeysCallback, hEmpty, List.count_append]

/-- C7 at a concrete input: a fresh node for database 3 receiving no keys. -/
theorem empty_fetch_result_witness :
    ((DatabaseItem.construct (QString.ofAscii "db3") 3 5).loadKeys.loadKeysCallback
        ⟨QString.ofAscii ":"⟩ []).m_keys = [] ∧
    ((DatabaseItem.construct (QString.ofAscii "db3") 3 5).loadKeys.loadKeysCallback
        ⟨QString.ofAscii ":"⟩ []).m_locked = false ∧
    ((DatabaseItem.construct (QString.ofAscii "db3") 3 5).loadKeys.loadKeysCallback
        ⟨QString.ofAscii ":"⟩ []).emitted = [Signal.updateIcon 3] :=
  have h := empty_fetch_result (DatabaseItem.construct (QString.ofAscii "db3") 3 5)
    ⟨QString.ofAscii ":"⟩ rfl
  ⟨h.2.1, h.2.2.1, h.2.2.2.2.2.1⟩

/-- C8. `loadKeys` on a loaded node. When the child sequence is non-empty, `loadKeys` changes
nothing but the record of emitted signals, to which it adds one `keysLoaded` of this index: no
request to the backend, no render pass, children and lock as before. Called twice in
succession it adds two such signals and still nothing else. -/
theorem loadKeys_loaded (s : DatabaseItem) (hLoaded : s.m_keys ≠ []) :
    s.loadKeys = { s with emitted := s.emitted ++ [Signal.keysLoaded s.m_index] } ∧
    s.loadKeys.loadKeys =
      { s with emitted := s.emitted ++ [Signal.keysLoaded s.m_index,
          Signal.keysLoaded s.m_index] } := by
  have hpos : s.m_keys.length > 0 := List.length_pos.mpr hLoaded
  simp [DatabaseItem.loadKeys, hpos]

/-- C8 at a concrete input: a node holding one leaf, `loadKeys` called twice. -/
theorem loadKeys_loaded_witness :
    ({ DatabaseItem.construct (QString.ofAscii "db3") 3 5 with
        m_keys := [TreeItem.KeyItem (QString.ofAscii "k") 3] } : DatabaseItem).loadKeys.loadKeys =
      { DatabaseItem.construct (QString.ofAscii "db3") 3 5 with
        m_keys := [TreeItem.KeyItem (QString.ofAscii "k") 3]
        emitted := [Signal.keysLoaded 3, Signal.keysLoaded 3] } :=
  (loadKeys_loaded { DatabaseItem.construct (QString.ofAscii "db3") 3 5 with
        m_keys := [TreeItem.KeyItem (QString.ofAscii "k") 3] } (by simp)).2

/-- C9. `unload` on a node without children returns the state it was given: children, lock,
name, counts, watcher all as before, no signal emitted, no request made. -/
theorem unload_empty (s : DatabaseItem) (hEmpty : s.m_keys = []) : s.unload = s := by
  simp [DatabaseItem.unload, hEmpty]

/-- C9 at a concrete input: a fresh node. -/
theorem unload_empty_witness :
    (DatabaseItem.construct (QString.ofAscii "db3") 3 5).unload =
      DatabaseItem.construct (QString.ofAscii "db3") 3 5 :=
  unload_empty (DatabaseItem.construct (QString.ofAscii "db3") 3 5) rfl

/-- C10. `reload` on a loaded node. When the child sequence is non-empty, `reload` emits
`unloadStarted` and then `updateIcon` of this index and nothing else (no `keysLoaded`), leaves
the node without children and locked, and makes exactly one request to the backend, for this
index; everything else is as before. -/
theorem reload_loaded (s : DatabaseItem) (hLoaded : s.m_keys ≠ []) :
    s.reload =
      { s with
        m_keys := []
        m_locked := true
        emitted := s.emitted ++ [Signal.unloadStarted s.m_index, Signal.updateIcon s.m_index]
        keyRequests := s.keyRequests ++ [s.m_index] } := by
  have hne : ¬ s.m_keys.length = 0 := by
    intro h
    exact hLoaded (List.length_eq_zero.mp h)
  simp [DatabaseItem.reload, DatabaseItem.unload, DatabaseItem.loadKeys, hne]

/-- C10 at a concrete input: a node holding one leaf. -/
theorem reload_loaded_witness :
    ({ DatabaseItem.construct (QString.ofAscii "db3") 3 5 with
        m_keys := [TreeItem.KeyItem (QString.ofAscii "k") 3] } : DatabaseItem).reload =
      { DatabaseItem.construct (QString.ofAscii "db3") 3 5 with
        m_locked := true
        emitted := [Signal.unloadStarted 3, Signal.updateIcon 3]
        keyRequests := [3] } :=
  reload_loaded { DatabaseItem.construct (QString.ofAscii "db3") 3 5 with
        m_keys := [TreeItem.KeyItem (QString.ofAscii "k") 3] } (by simp)

/-- The three steps of a load, from a node without children and for a non-empty key list, in
one equation. -/
theorem DatabaseItem.load_result (s : DatabaseItem) (operations : Operations)
    (K : List QString) (hEmpty : s.m_keys = []) (hK : K ≠ []) :
    (s.loadKeys.loadKeysCallback operations K).onKeysRendered =
      some { s with
        m_keys := renderKeys K QRegExp.default operations.getNamespaceSeparator s.getIndex
        m_locked := false
        m_keysLoadingWatcher :=
          some (renderKeys K QRegExp.default operations.getNamespaceSeparator s.getIndex)
        emitted := s.emitted ++ [Signal.updateIcon s.m_index, Signal.keysLoaded s.m_index]
        keyRequests := s.keyRequests ++ [s.m_index]
        renderRuns := s.renderRuns ++ [(K, operations.getNamespaceSeparator)] } := by
  have hK0 : ¬ K.length = 0 := by
    intro h
    exact hK (List.length_eq_zero.mp h)
  simp [DatabaseItem.loadKeys, DatabaseItem.loadKeysCallback, DatabaseItem.onKeysRendered,
    DatabaseItem.getIndex, hEmpty, hK0]

theorem DatabaseItem.unload_m_keys (s : DatabaseItem) : s.unload.m_keys = [] := by
  unfold DatabaseItem.unload
  split
  · rename_i h
    exact List.length_eq_zero.mp h
  · rfl

theorem DatabaseItem.unload_m_index (s : DatabaseItem) : s.unload.m_index = s.m_index := by
  unfold DatabaseItem.unload
  split <;> rfl

theorem DatabaseItem.unload_keyRequests (s : DatabaseItem) :
    s.unload.keyRequests = s.keyRequests := by
  unfold DatabaseItem.unload
  split <;> rfl

/-- C11. Round trip. A node without children is loaded from a non-empty key list `K`; it is
then unloaded and loaded again, the backend delivering the same `K` with the same separator.
The unload leaves no children, the second `loadKeys` requests the keys anew, and when the
second render pass has finished the child sequence is the same tree as after the first
load. -/
theorem round_trip (s : DatabaseItem) (operations : Operations) (K : List QString)
    (hEmpty : s.m_keys = []) (hK : K ≠ []) :
    ∃ t1, (s.loadKeys.loadKeysCallback operations K).onKeysRendered = some t1 ∧
      t1.m_keys = renderKeys K QRegExp.default operations.getNamespaceSeparator s.getIndex ∧
      t1.unload.m_keys = [] ∧
      t1.unload.loadKeys.keyRequests = t1.keyRequests ++ [s.m_index] ∧
      ∃ t2, (t1.unload.loadKeys.loadKeysCallback operations K).onKeysRendered = some t2 ∧
        t2.m_keys = t1.m_keys := by
  refine ⟨_, DatabaseItem.load_result s operations K hEmpty hK, rfl, ?_, ?_, ?_⟩
  · exact DatabaseItem.unload_m_keys _
  · simp [DatabaseItem.loadKeys, DatabaseItem.unload_m_keys, DatabaseItem.unload_keyRequests,
      DatabaseItem.unload_m_index]
  · refine ⟨_, DatabaseItem.load_result _ operations K (DatabaseItem.unload_m_keys _) hK, ?_⟩
    simp [DatabaseItem.getIndex, DatabaseItem.unload_m_index]

/-- C11 at a concrete input: a fresh node for database 3, the keys `a:b` and `c`. -/
theorem round_trip_witness :
    ∃ t1, (((DatabaseItem.construct (QString.ofAscii "db3") 3 5).loadKeys.loadKeysCallback
          ⟨QString.ofAscii ":"⟩ [QString.ofAscii "a:b", QString.ofAscii "c"]).onKeysRendered
        = some t1) ∧
      ∃ t2, (t1.unload.loadKeys.loadKeysCallback ⟨QString.ofAscii ":"⟩
          [QString.ofAscii "a:b", QString.ofAscii "c"]).onKeysRendered = some t2 ∧
        t2.m_keys = t1.m_keys := by
  obtain ⟨t1, h1, _, _, _, t2, h2, h3⟩ :=
    round_trip (DatabaseItem.construct (QString.ofAscii "db3") 3 5) ⟨QString.ofAscii ":"⟩
      [QString.ofAscii "a:b", QString.ofAscii "c"] rfl (by simp)
  exact ⟨t1, h1, t2, h2, h3⟩

/-! ## The display name -/

theorem QString.escapeAt_of_ne (c : QChar) (cs : QString) (h : c ≠ 37) :
    QString.escapeAt (c :: cs) = none := by
  simp [QString.escapeAt, h]

theorem QString.argEscapes_append (lead t : QString) (h : (37 : QChar) ∉ lead) :
    QString.argEscapes (lead ++ t) = QString.argEscapes t := by
  induction lead with
  | nil => rfl
  | cons c cs ih =>
    have hc : c ≠ 37 := fun e => h (by simp [e])
    have hcs : (37 : QChar) ∉ cs := fun e => h (by simp [e])
    rw [List.cons_append, QString.argEscapes, QString.escapeAt_of_ne c _ hc]
    exact ih hcs

theorem QString.replaceArgEscapes_append (lowest : Nat) (a lead t : QString)
    (h : (37 : QChar) ∉ lead) :
    QString.replaceArgEscapes lowest a 0 (lead ++ t) =
      lead ++ QString.replaceArgEscapes lowest a 0 t := by
  induction lead with
  | nil => rfl
  | cons c cs ih =>
    have hc : c ≠ 37 := fun e => h (by simp [e])
    have hcs : (37 : QChar) ∉ cs := fun e => h (by simp [e])
    rw [List.cons_append, QString.replaceArgEscapes, QString.escapeAt_of_ne c _ hc]
    simp only [List.cons_append]
    rw [ih hcs]

/-- `arg` on a text whose place markers all lie behind a marker-free lead. -/
theorem QString.arg_append (lead t a : QString) (lowest : Nat) (h : (37 : QChar) ∉ lead)
    (hmin : (QString.argEscapes t).min? = some lowest) :
    QString.arg (lead ++ t) a = lead ++ QString.replaceArgEscapes lowest a 0 t := by
  unfold QString.arg
  rw [QString.argEscapes_append lead t h, hmin]
  exact QString.replaceArgEscapes_append lowest a lead t h

/-- C13, as the code has it. `loadKeys` looks at the child sequence only, never at the lock.
On a node without children, locked or not, it sets the lock, emits `updateIcon` and makes one
more request to the backend; with children present it makes none. In no case does `loadKeys`
itself dispatch a render pass or touch the watcher: passes are dispatched by the callbacks,
one for each delivery of a non-empty key list. -/
theorem loadKeys_ignores_lock (s : DatabaseItem) (hEmpty : s.m_keys = []) :
    s.loadKeys.keyRequests = s.keyRequests ++ [s.m_index] ∧
    s.loadKeys.m_locked = true ∧
    s.loadKeys.emitted = s.emitted ++ [Signal.updateIcon s.m_index] ∧
    s.loadKeys.renderRuns = s.renderRuns ∧
    s.loadKeys.m_keysLoadingWatcher = s.m_keysLoadingWatcher ∧
    (∀ t : DatabaseItem, t.loadKeys.renderRuns = t.renderRuns ∧
      t.loadKeys.m_keysLoadingWatcher = t.m_keysLoadingWatcher ∧
      (t.m_keys ≠ [] → t.loadKeys.keyRequests = t.keyRequests)) ∧
    (∀ (t : DatabaseItem) (operations : Operations) (K : List QString), K ≠ [] →
      (t.loadKeysCallback operations K).renderRuns =
        t.renderRuns ++ [(K, operations.getNamespaceSeparator)]) := by
  refine ⟨?_, ?_, ?_, ?_, ?_, ?_, ?_⟩
  · simp [DatabaseItem.loadKeys, hEmpty]
  · simp [DatabaseItem.loadKeys, hEmpty]
  · simp [DatabaseItem.loadKeys, hEmpty]
  · simp [DatabaseItem.loadKeys, hEmpty]
  · simp [DatabaseItem.loadKeys, hEmpty]
  · intro t
    refine ⟨?_, ?_, ?_⟩
    · unfold DatabaseItem.loadKeys
      split <;> rfl
    · unfold DatabaseItem.loadKeys
      split <;> rfl
    · intro h
      have hpos : t.m_keys.length > 0 := List.length_pos.mpr h
      simp [DatabaseItem.loadKeys, hpos]
  · intro t operations K hK
    have hK0 : ¬ K.length = 0 := fun h => hK (List.length_eq_zero.mp h)
    simp [DatabaseItem.loadKeysCallback, hK0]

/-- C13 at a concrete input: the node of database 3 while loading (lock set, one request
pending, no children) requests the keys a second time when `loadKeys` is called again. -/
theorem loadKeys_ignores_lock_witness :
    (DatabaseItem.construct (QString.ofAscii "db3") 3 5).loadKeys.m_locked = true ∧
    (DatabaseItem.construct (QString.ofAscii "db3") 3 5).loadKeys.loadKeys.keyRequests =
      [3, 3] :=
  ⟨rfl, (loadKeys_ignores_lock (DatabaseItem.construct (QString.ofAscii "db3") 3 5).loadKeys
    rfl).1.trans rfl⟩

/-- C13 fails as stated: `loadKeys` called twice on a fresh node leaves two requests to the
backend pending, and when both callbacks deliver the key `k` two render passes have been
dispatched. -/
theorem second_loadKeys_fetches_again :
    (DatabaseItem.construct (QString.ofAscii "db3") 3 5).loadKeys.m_locked = true ∧
    (DatabaseItem.construct (QString.ofAscii "db3") 3 5).loadKeys.m_keys.length = 0 ∧
    (DatabaseItem.construct (QString.ofAscii "db3") 3 5).loadKeys.keyRequests = [3] ∧
    (DatabaseItem.construct (QString.ofAscii "db3") 3 5).loadKeys.loadKeys.keyRequests =
      [3, 3] ∧
    ((Session.start (QString.ofAscii "db3") 3 5).run
        [Event.loadKeys, Event.loadKeys,
          Event.keysDelivered ⟨QString.ofAscii ":"⟩ [QString.ofAscii "k"],
          Event.keysDelivered ⟨QString.ofAscii ":"⟩ [QString.ofAscii "k"]]).map
      (fun σ => σ.item.renderRuns.length) = some 2 := by
  refine ⟨rfl, rfl, rfl, rfl, ?_⟩
  rfl

theorem Session.run_invariant (P : Session → Prop)
    (hstep : ∀ (σ : Session) (e : Event) (τ : Session), σ.step e = some τ → P σ → P τ) :
    ∀ (es : List Event) (σ τ : Session), σ.run es = some τ → P σ → P τ := by
  intro es
  induction es with
  | nil =>
    intro σ τ h hσ
    simp only [Session.run, Option.some.injEq] at h
    exact h ▸ hσ
  | cons e es ih =>
    intro σ τ h hσ
    simp only [Session.run] at h
    cases hs : σ.step e with
    | none => simp [hs] at h
    | some ρ =>
      simp only [hs, Option.some_bind] at h
      exact ih ρ τ h (hstep σ e ρ hs hσ)

theorem Session.runGuarded_invariant (P : Session → Prop)
    (hstep : ∀ (σ : Session) (e : Event) (τ : Session),
      (e = Event.loadKeys ∨ e = Event.reload → σ.outstanding = false) →
      σ.step e = some τ → P σ → P τ) :
    ∀ (es : List Event) (σ τ : Session), σ.runGuarded es = some τ → P σ → P τ := by
  intro es
  induction es with
  | nil =>
    intro σ τ h hσ
    simp only [Session.runGuarded, Option.some.injEq] at h
    exact h ▸ hσ
  | cons e es ih =>
    intro σ τ h hσ
    have key : ∀ ρ, σ.step e = some ρ →
        (e = Event.loadKeys ∨ e = Event.reload → σ.outstanding = false) →
        ρ.runGuarded es = some τ → P τ :=
      fun ρ hs hg hr => ih ρ τ hr (hstep σ e ρ hg hs hσ)
    cases e with
    | loadKeys =>
      simp only [Session.runGuarded] at h
      split at h
      · simp at h
      · rename_i ho
        cases hs : σ.step Event.loadKeys with
        | none => simp [hs] at h
        | some ρ =>
          simp only [hs, Option.some_bind] at h
          exact key ρ hs (fun _ => by simpa using ho) h
    | reload =>
      simp only [Session.runGuarded] at h
      split at h
      · simp at h
      · rename_i ho
        cases hs : σ.step Event.reload with
        | none => simp [hs] at h
        | some ρ =>
          simp only [hs, Option.some_bind] at h
          exact key ρ hs (fun _ => by simpa using ho) h
    | unload =>
      simp only [Session.runGuarded] at h
      cases hs : σ.step Event.unload with
      | none => simp [hs] at h
      | some ρ =>
        simp only [hs, Option.some_bind] at h
        exact key ρ hs (fun hh => by rcases hh with hh | hh <;> cases hh) h
    | keysDelivered operations rawKeys =>
      simp only [Session.runGuarded] at h
      cases hs : σ.step (Event.keysDelivered operations rawKeys) with
      | none => simp [hs] at h
      | some ρ =>
        simp only [hs, Option.some_bind] at h
        exact key ρ hs (fun hh => by rcases hh with hh | hh <;> cases hh) h
    | renderFinished =>
      simp only [Session.runGuarded] at h
      cases hs : σ.step Event.renderFinished with
      | none => simp [hs] at h
      | some ρ =>
        simp only [hs, Option.some_bind] at h
        exact key ρ hs (fun hh => by rcases hh with hh | hh <;> cases hh) h

theorem DatabaseItem.loadKeys_cases (s : DatabaseItem) :
    (s.m_keys ≠ [] ∧ s.loadKeys.m_locked = s.m_locked ∧ s.loadKeys.m_keys = s.m_keys ∧
      s.loadKeys.keyRequests = s.keyRequests) ∨
    (s.m_keys = [] ∧ s.loadKeys.m_locked = true ∧ s.loadKeys.m_keys = [] ∧
      s.loadKeys.keyRequests = s.keyRequests ++ [s.m_index]) := by
  cases hk : s.m_keys with
  | nil => right; simp [DatabaseItem.loadKeys, hk]
  | cons c cs => left; simp [DatabaseItem.loadKeys, hk]

theorem DatabaseItem.unload_cases (s : DatabaseItem) :
    (s.m_keys = [] ∧ s.unload = s) ∨ (s.m_keys ≠ [] ∧ s.unload.m_locked = false) := by
  cases hk : s.m_keys with
  | nil => left; simp [DatabaseItem.unload, hk]
  | cons c cs => right; simp [DatabaseItem.unload, hk]

theorem DatabaseItem.loadKeysCallback_fields (s : DatabaseItem) (operations : Operations)
    (K : List QString) :
    (s.loadKeysCallback operations K).m_keys = s.m_keys ∧
    (s.loadKeysCallback operations K).keyRequests = s.keyRequests ∧
    (K.length = 0 → (s.loadKeysCallback operations K).m_locked = false) ∧
    (K.length ≠ 0 → (s.loadKeysCallback operations K).m_locked = s.m_locked) := by
  by_cases hK : K.length = 0 <;> simp [DatabaseItem.loadKeysCallback, hK]

theorem DatabaseItem.onKeysRendered_fields (s t : DatabaseItem)
    (h : s.onKeysRendered = some t) : t.m_locked = false ∧ t.keyRequests = s.keyRequests := by
  unfold DatabaseItem.onKeysRendered at h
  split at h
  · simp at h
  · simp only [Option.some.injEq] at h
    subst h
    exact ⟨rfl, rfl⟩

theorem Session.outstanding_iff (σ : Session) :
    σ.outstanding = true ↔
      σ.callbacksRun < σ.item.keyRequests.length ∨ σ.finishedPending = true := by
  simp [Session.outstanding, Session.fetchOutstanding]

/-- What every sequence of steps keeps true: no more callbacks have run than requests were
made, a locked item has a fetch or a render pass outstanding, and a locked item has no
children. -/
theorem Session.step_keeps (σ : Session) (e : Event) (τ : Session) (hs : σ.step e = some τ)
    (h : σ.callbacksRun ≤ σ.item.keyRequests.length ∧
      (σ.item.m_locked = true → σ.outstanding = true) ∧
      (σ.item.m_locked = true → σ.item.m_keys = [])) :
    τ.callbacksRun ≤ τ.item.keyRequests.length ∧
      (τ.item.m_locked = true → τ.outstanding = true) ∧
      (τ.item.m_locked = true → τ.item.m_keys = []) := by
  obtain ⟨hle, hout, hkeys⟩ := h
  rw [Session.outstanding_iff] at hout
  rw [Session.outstanding_iff]
  cases e with
  | loadKeys =>
    simp only [Session.step, Option.some.injEq] at hs
    subst hs
    rcases DatabaseItem.loadKeys_cases σ.item with ⟨_, h1, h2, h3⟩ | ⟨_, h1, h2, h3⟩
    · simp only [h1, h2, h3]
      exact ⟨hle, hout, hkeys⟩
    · simp only [h1, h2, h3, List.length_append, List.length_singleton]
      exact ⟨by omega, fun _ => Or.inl (by omega), fun _ => trivial⟩
  | unload =>
    simp only [Session.step, Option.some.injEq] at hs
    subst hs
    rcases DatabaseItem.unload_cases σ.item with ⟨_, h1⟩ | ⟨_, h1⟩
    · simp only [h1]
      exact ⟨hle, hout, hkeys⟩
    · simp only [h1, DatabaseItem.unload_keyRequests]
      exact ⟨hle, fun hh => by simp at hh, fun hh => by simp at hh⟩
  | reload =>
    simp only [Session.step, Option.some.injEq] at hs
    subst hs
    simp only [DatabaseItem.reload]
    rcases DatabaseItem.loadKeys_cases σ.item.unload with ⟨hne, _⟩ | ⟨_, h1, h2, h3⟩
    · exact absurd (DatabaseItem.unload_m_keys σ.item) hne
    · simp only [h1, h2, h3, List.length_append, List.length_singleton,
        DatabaseItem.unload_keyRequests]
      exact ⟨by omega, fun _ => Or.inl (by omega), fun _ => trivial⟩
  | keysDelivered operations rawKeys =>
    simp only [Session.step] at hs
    split at hs
    · rename_i hf
      simp only [Option.some.injEq] at hs
      subst hs
      simp only [Session.fetchOutstanding, decide_eq_true_eq] at hf
      obtain ⟨h1, h2, h3, h4⟩ :=
        DatabaseItem.loadKeysCallback_fields σ.item operations rawKeys
      simp only [h1, h2]
      refine ⟨by omega, ?_, ?_⟩
      · intro hl
        by_cases hK : rawKeys.length = 0
        · rw [h3 hK] at hl
          simp at hl
        · right
          simp [hK]
      · intro hl
        by_cases hK : rawKeys.length = 0
        · rw [h3 hK] at hl
          simp at hl
        · rw [h4 hK] at hl
          exact hkeys hl
    · simp at hs
  | renderFinished =>
    simp only [Session.step] at hs
    split at hs
    · cases hr : σ.item.onKeysRendered with
      | none => simp [hr] at hs
      | some t =>
        simp only [hr, Option.map_some', Option.some.injEq] at hs
        subst hs
        obtain ⟨h1, h2⟩ := DatabaseItem.onKeysRendered_fields σ.item t hr
        simp only [h1, h2]
        exact ⟨hle, fun hh => by simp at hh, fun hh => by simp at hh⟩
    · simp at hs

theorem Session.start_keeps (displayName : QString) (index : Nat) (keysCount : Int) :
    (Session.start displayName index keysCount).callbacksRun ≤
        (Session.start displayName index keysCount).item.keyRequests.length ∧
      ((Session.start displayName index keysCount).item.m_locked = true →
        (Session.start displayName index keysCount).outstanding = true) ∧
      ((Session.start displayName index keysCount).item.m_locked = true →
        (Session.start displayName index keysCount).item.m_keys = []) := by
  simp [Session.start, DatabaseItem.construct]

/-- What the sequences keep true in which `loadKeys` and `reload` are only called while
nothing is outstanding: at most one request is pending, never together with a render pass, the
lock is set exactly while something is outstanding, and a locked item has no children. -/
theorem Session.step_keeps_guarded (σ : Session) (e : Event) (τ : Session)
    (hg : e = Event.loadKeys ∨ e = Event.reload → σ.outstanding = false)
    (hs : σ.step e = some τ)
    (h : σ.callbacksRun ≤ σ.item.keyRequests.length ∧
      σ.item.keyRequests.length ≤ σ.callbacksRun + 1 ∧
      (σ.callbacksRun < σ.item.keyRequests.length → σ.finishedPending = false) ∧
      (σ.item.m_locked = true ↔ σ.outstanding = true) ∧
      (σ.item.m_locked = true → σ.item.m_keys = [])) :
    τ.callbacksRun ≤ τ.item.keyRequests.length ∧
      τ.item.keyRequests.length ≤ τ.callbacksRun + 1 ∧
      (τ.callbacksRun < τ.item.keyRequests.length → τ.finishedPending = false) ∧
      (τ.item.m_locked = true ↔ τ.outstanding = true) ∧
      (τ.item.m_locked = true → τ.item.m_keys = []) := by
  obtain ⟨hle, hle2, hexcl, hiff, hkeys⟩ := h
  rw [Session.outstanding_iff] at hiff
  rw [Session.outstanding_iff]
  have hidle : σ.outstanding = false →
      σ.callbacksRun = σ.item.keyRequests.length ∧ σ.finishedPending = false ∧
        σ.item.m_locked = false := by
    intro ho
    have hno : ¬ (σ.callbacksRun < σ.item.keyRequests.length ∨ σ.finishedPending = true) := by
      rw [← Session.outstanding_iff, ho]
      simp
    have hl : ¬ σ.item.m_locked = true := fun hl => hno (hiff.mp hl)
    refine ⟨by omega, ?_, by simpa using hl⟩
    cases hf : σ.finishedPending with
    | false => rfl
    | true => exact absurd (Or.inr hf) hno
  cases e with
  | loadKeys =>
    obtain ⟨hcr, hfin, hlock⟩ := hidle (hg (Or.inl rfl))
    simp only [Session.step, Option.some.injEq] at hs
    subst hs
    rcases DatabaseItem.loadKeys_cases σ.item with ⟨_, h1, h2, h3⟩ | ⟨_, h1, h2, h3⟩
    · simp only [h1, h2, h3]
      exact ⟨hle, hle2, hexcl, hiff, hkeys⟩
    · simp only [h1, h2, h3, List.length_append, List.length_singleton]
      exact ⟨by omega, by omega, fun _ => hfin,
        ⟨fun _ => Or.inl (by omega), fun _ => trivial⟩, fun _ => trivial⟩
  | unload =>
    simp only [Session.step, Option.some.injEq] at hs
    subst hs
    rcases DatabaseItem.unload_cases σ.item with ⟨_, h1⟩ | ⟨hne, h1⟩
    · simp only [h1]
      exact ⟨hle, hle2, hexcl, hiff, hkeys⟩
    · have hl : ¬ σ.item.m_locked = true := fun hl => hne (hkeys hl)
      simp only [h1, DatabaseItem.unload_keyRequests]
      refine ⟨hle, hle2, hexcl, ⟨fun hh => by simp at hh, fun ho => ?_⟩,
        fun hh => by simp at hh⟩
      exact absurd (hiff.mpr ho) hl
  | reload =>
    obtain ⟨hcr, hfin, hlock⟩ := hidle (hg (Or.inr rfl))
    simp only [Session.step, Option.some.injEq] at hs
    subst hs
    simp only [DatabaseItem.reload]
    rcases DatabaseItem.loadKeys_cases σ.item.unload with ⟨hne, _⟩ | ⟨_, h1, h2, h3⟩
    · exact absurd (DatabaseItem.unload_m_keys σ.item) hne
    · simp only [h1, h2, h3, List.length_append, List.length_singleton,
        DatabaseItem.unload_keyRequests]
      exact ⟨by omega, by omega, fun _ => hfin,
        ⟨fun _ => Or.inl (by omega), fun _ => trivial⟩, fun _ => trivial⟩
  | keysDelivered operations rawKeys =>
    simp only [Session.step] at hs
    split at hs
    · rename_i hf
      simp only [Option.some.injEq] at hs
      subst hs
      simp only [Session.fetchOutstanding, decide_eq_true_eq] at hf
      have hfin := hexcl hf
      have hlock : σ.item.m_locked = true := hiff.mpr (Or.inl hf)
      obtain ⟨h1, h2, h3, h4⟩ :=
        DatabaseItem.loadKeysCallback_fields σ.item operations rawKeys
      simp only [h1, h2]
      by_cases hK : rawKeys.length = 0
      · simp only [h3 hK, hK, if_true, hfin]
        refine ⟨by omega, by omega, fun _ => trivial, ⟨fun hh => by simp at hh, ?_⟩,
          fun hh => by simp at hh⟩
        intro ho
        rcases ho with ho | ho
        · omega
        · simp at ho
      · simp only [h4 hK, hK, if_false, hlock]
        exact ⟨by omega, by omega, fun hh => by omega,
          ⟨fun _ => Or.inr trivial, fun _ => trivial⟩, fun _ => hkeys hlock⟩
    · simp at hs
  | renderFinished =>
    simp only [Session.step] at hs
    split at hs
    · rename_i hf
      cases hr : σ.item.onKeysRendered with
      | none => simp [hr] at hs
      | some t =>
        simp only [hr, Option.map_some', Option.some.injEq] at hs
        subst hs
        obtain ⟨h1, h2⟩ := DatabaseItem.onKeysRendered_fields σ.item t hr
        have hnf : ¬ σ.callbacksRun < σ.item.keyRequests.length := by
          intro hlt
          rw [hexcl hlt] at hf
          simp at hf
        simp only [h1, h2]
        refine ⟨hle, hle2, fun _ => trivial, ⟨fun hh => by simp at hh, ?_⟩,
          fun hh => by simp at hh⟩
        intro ho
        rcases ho with ho | ho
        · exact absurd ho hnf
        · simp at ho
    · simp at hs

/-- C14, as the code has it. In every state reached from a fresh node by any sequence of
`loadKeys`, `unload`, `reload`, callback and render-completion steps, a set lock means that a
backend fetch or a render pass is outstanding. In the states reached by sequences that call
`loadKeys` and `reload` only while nothing is outstanding, the lock is set exactly when a
fetch or a render pass is outstanding. -/
theorem lock_and_outstanding (displayName : QString) (index : Nat) (keysCount : Int)
    (es : List Event) (σ : Session) :
    ((Session.start displayName index keysCount).run es = some σ →
      σ.item.m_locked = true → σ.outstanding = true) ∧
    ((Session.start displayName index keysCount).runGuarded es = some σ →
      (σ.item.m_locked = true ↔ σ.outstanding = true)) := by
  constructor
  · intro h
    exact (Session.run_invariant _ Session.step_keeps es _ σ h
      (Session.start_keeps displayName index keysCount)).2.1
  · intro h
    refine (Session.runGuarded_invariant _ Session.step_keeps_guarded es _ σ h ?_).2.2.2.1
    simp [Session.start, DatabaseItem.construct, Session.outstanding,
      Session.fetchOutstanding]

/-- C14 at a concrete input: after `loadKeys` and the delivery of one key the node is locked
with its render pass outstanding. -/
theorem lock_and_outstanding_witness :
    ∃ σ, (Session.start (QString.ofAscii "db3") 3 5).run
        [Event.loadKeys, Event.keysDelivered ⟨QString.ofAscii ":"⟩ [QString.ofAscii "k"]] =
        some σ ∧ σ.item.m_locked = true ∧ σ.outstanding = true :=
  ⟨_, rfl, rfl, (lock_and_outstanding (QString.ofAscii "db3") 3 5
    [Event.loadKeys, Event.keysDelivered ⟨QString.ofAscii ":"⟩ [QString.ofAscii "k"]] _).1
    rfl rfl⟩

/-- C14 fails as stated: `loadKeys` called twice on a fresh node and the first callback
delivering no keys leave the node unlocked while the second request is still outstanding. -/
theorem unlocked_while_fetch_outstanding :
    ((Session.start (QString.ofAscii "db3") 3 5).run
        [Event.loadKeys, Event.loadKeys, Event.keysDelivered ⟨QString.ofAscii ":"⟩ []]).map
      (fun σ => (σ.item.m_locked, σ.fetchOutstanding, σ.outstanding)) =
      some (false, true, true) := by
  decide

/-- C15. Never locked with stale children. In every state reached from a fresh node by any
sequence of `loadKeys`, `unload`, `reload`, callback and render-completion steps, a set lock
means that the child sequence is empty. -/
theorem locked_has_no_children (displayName : QString) (index : Nat) (keysCount : Int)
    (es : List Event) (σ : Session)
    (h : (Session.start displayName index keysCount).run es = some σ)
    (hl : σ.item.m_locked = true) : σ.item.m_keys = [] :=
  (Session.run_invariant _ Session.step_keeps es _ σ h
    (Session.start_keeps displayName index keysCount)).2.2 hl

/-- C15 at a concrete input: a fresh node after `loadKeys`, `loadKeys` again and the delivery
of one key is locked and has no children. -/
theorem locked_has_no_children_witness :
    ∃ σ, (Session.start (QString.ofAscii "db3") 3 5).run
        [Event.loadKeys, Event.loadKeys,
          Event.keysDelivered ⟨QString.ofAscii ":"⟩ [QString.ofAscii "k"]] = some σ ∧
      σ.item.m_locked = true ∧ σ.item.m_keys = [] :=
  ⟨_, rfl, rfl, locked_has_no_children (QString.ofAscii "db3") 3 5
    [Event.loadKeys, Event.loadKeys,
      Event.keysDelivered ⟨QString.ofAscii ":"⟩ [QString.ofAscii "k"]] _ rfl rfl⟩

/-! ## Termination and the edge cases of the grouping -/

theorem renderNamaspacedKey_found (sep : QString) (dbIndex : Int) (fullKey np : QString)
    (level : List TreeItem) (i : Nat)
    (h : ¬ (!QString.contains np sep || sep.isEmpty) = true)
    (hf : findNamespaceItem (firstSegment np sep) level = some i) :
    renderNamaspacedKey sep dbIndex fullKey np level =
      modifyAt (withChilds (fun childs =>
        renderNamaspacedKey sep dbIndex fullKey (restAfter np sep) childs)) i level := by
  rw [renderNamaspacedKey, dif_neg h]
  show (match findNamespaceItem (firstSegment np sep) level with
    | some i =>
      modifyAt (withChilds (fun childs =>
        renderNamaspacedKey sep dbIndex fullKey (restAfter np sep) childs)) i level
    | none =>
      level ++ [TreeItem.NamespaceItem (firstSegment np sep)
        (renderNamaspacedKey sep dbIndex fullKey (restAfter np sep) [])]) = _
  rw [hf]

theorem renderNamaspacedKey_new (sep : QString) (dbIndex : Int) (fullKey np : QString)
    (level : List TreeItem)
    (h : ¬ (!QString.contains np sep || sep.isEmpty) = true)
    (hf : findNamespaceItem (firstSegment np sep) level = none) :
    renderNamaspacedKey sep dbIndex fullKey np level =
      level ++ [TreeItem.NamespaceItem (firstSegment np sep)
        (renderNamaspacedKey sep dbIndex fullKey (restAfter np sep) [])] := by
  rw [renderNamaspacedKey, dif_neg h]
  show (match findNamespaceItem (firstSegment np sep) level with
    | some i =>
      modifyAt (withChilds (fun childs =>
        renderNamaspacedKey sep dbIndex fullKey (restAfter np sep) childs)) i level
    | none =>
      level ++ [TreeItem.NamespaceItem (firstSegment np sep)
        (renderNamaspacedKey sep dbIndex fullKey (restAfter np sep) [])]) = _
  rw [hf]

theorem getElem?_length_append (pre : List TreeItem) (c : TreeItem) (post : List TreeItem) :
    (pre ++ c :: post)[pre.length]? = some c := by
  induction pre with
  | nil => simp
  | cons x xs ih => simpa using ih

/-- With a bound above the length of the part to process, the bounded recursion returns, and
returns what `renderNamaspacedKey` returns. -/
theorem renderNamaspacedKeyBounded_eq (sep : QString) (dbIndex : Int) (fullKey : QString) :
    ∀ (bound : Nat) (np : QString) (level : List TreeItem), np.length < bound →
      renderNamaspacedKeyBounded sep dbIndex fullKey bound np level =
        some (renderNamaspacedKey sep dbIndex fullKey np level) := by
  intro bound
  induction bound with
  | zero => intro np level h; omega
  | succ n ih =>
    intro np level h
    rw [renderNamaspacedKeyBounded]
    by_cases hc : (!QString.contains np sep || sep.isEmpty) = true
    · rw [if_pos hc, renderNamaspacedKey_leaf sep dbIndex fullKey np level hc]
    · have hlt := QString.rest_length_lt np sep hc
      have hrest : (restAfter np sep).length < n := by
        unfold restAfter
        omega
      rw [if_neg hc]
      show (match findNamespaceItem (firstSegment np sep) level with
        | some i =>
          (renderNamaspacedKeyBounded sep dbIndex fullKey n (restAfter np sep)
              (childsOf level[i]?)).map
            (fun childs => modifyAt (withChilds (fun _ => childs)) i level)
        | none =>
          (renderNamaspacedKeyBounded sep dbIndex fullKey n (restAfter np sep) []).map
            (fun childs => level ++ [TreeItem.NamespaceItem (firstSegment np sep) childs])) = _
      cases hf : findNamespaceItem (firstSegment np sep) level with
      | none =>
        simp only [ih _ [] hrest, Option.map_some']
        rw [renderNamaspacedKey_new sep dbIndex fullKey np level hc hf]
      | some i =>
        obtain ⟨pre, cs, post, hl, hlen, _⟩ := findNamespaceItem_some _ _ _ hf
        simp only [ih _ _ hrest, Option.map_some']
        rw [renderNamaspacedKey_found sep dbIndex fullKey np level i hc hf]
        subst hlen
        subst hl
        rw [getElem?_length_append]
        simp only [modifyAt_length_append, withChilds, childsOf]

/-- C16. Termination of the recursive grouping. For every separator, key, remaining part and
level: the call of `renderNamaspacedKey` returns within `length + 1` nested calls, where
`length` is the length of the remaining part; a recursive call is made only with a non-empty
separator and on a strictly shorter remaining part; and the call adds exactly one leaf, storing
the full key, to the leaves below the level. -/
theorem renderNamaspacedKey_terminates (sep : QString) (dbIndex : Int)
    (fullKey np : QString) (level : List TreeItem) :
    renderNamaspacedKeyBounded sep dbIndex fullKey (np.length + 1) np level =
        some (renderNamaspacedKey sep dbIndex fullKey np level) ∧
    (¬ (!QString.contains np sep || sep.isEmpty) = true →
      sep ≠ [] ∧ (restAfter np sep).length < np.length) ∧
    (leafKeys (renderNamaspacedKey sep dbIndex fullKey np level)).length =
        (leafKeys level).length + 1 ∧
    (leafKeys (renderNamaspacedKey sep dbIndex fullKey np level)).Perm
        (fullKey :: leafKeys level) := by
  refine ⟨renderNamaspacedKeyBounded_eq sep dbIndex fullKey _ np level (Nat.lt_succ_self _),
    ?_, ?_, leafKeys_renderNamaspacedKey sep dbIndex fullKey np level⟩
  · intro hc
    refine ⟨?_, QString.rest_length_lt np sep hc⟩
    intro he
    apply hc
    simp [he]
  · simpa using (leafKeys_renderNamaspacedKey sep dbIndex fullKey np level).length_eq

theorem QString.find_self (sep : QString) : QString.find sep sep = some 0 := by
  cases sep with
  | nil => simp [QString.find]
  | cons c cs =>
    have hp : (c :: cs).isPrefixOf (c :: cs) = true :=
      List.isPrefixOf_iff_prefix.mpr (List.prefix_refl _)
    simp [QString.find, hp]

theorem QString.find_single (c : QChar) :
    ∀ (n : QString), c ∉ n → QString.find [c] (n ++ [c]) = some n.length := by
  intro n
  induction n with
  | nil => intro _; simp [QString.find, List.isPrefixOf]
  | cons x xs ih =>
    intro h
    have hx : ¬ c = x := fun e => h (by simp [e])
    have hxs : c ∉ xs := fun e => h (by simp [e])
    simp [QString.find, List.isPrefixOf, hx, ih hxs]

/-- Rendering a single key that ends in the separator, when that trailing occurrence is the
first one. -/
theorem renderKeys_trailing (sep n : QString) (dbIndex : Int) (hsep : sep ≠ [])
    (hfirst : QString.find sep (n ++ sep) = some n.length) :
    renderKeys [n ++ sep] QRegExp.default sep dbIndex =
      [TreeItem.NamespaceItem n [TreeItem.KeyItem (n ++ sep) dbIndex]] := by
  have hempty : sep.isEmpty = false := by
    cases sep with
    | nil => exact absurd rfl hsep
    | cons c cs => rfl
  have hidx : QString.indexOf (n ++ sep) sep = (n.length : Int) := by
    simp [QString.indexOf, hfirst]
  have hc : ¬ (!QString.contains (n ++ sep) sep || sep.isEmpty) = true := by
    simp [QString.contains, hidx, hempty]
  have hseg : firstSegment (n ++ sep) sep = n := by
    unfold firstSegment
    rw [hidx, QString.mid_left _ _ (by simp)]
    simp
  have hrest : restAfter (n ++ sep) sep = [] := by
    unfold restAfter
    rw [hidx]
    have hcast : ((n.length : Int) + (sep.length : Int)) = ((n.length + sep.length : Nat) : Int) := by
      push_cast; rfl
    rw [hcast, QString.mid_from _ _ (by simp)]
    simp
  have hnil : QString.contains [] sep = false := by
    cases sep with
    | nil => exact absurd rfl hsep
    | cons c cs => simp [QString.contains, QString.indexOf, QString.find, List.isPrefixOf]
  have hleaf : (!QString.contains [] sep || sep.isEmpty) = true := by simp [hnil]
  have hstep : renderNamaspacedKey sep dbIndex (n ++ sep) (n ++ sep) [] =
      [TreeItem.NamespaceItem n [TreeItem.KeyItem (n ++ sep) dbIndex]] := by
    rw [renderNamaspacedKey_new sep dbIndex (n ++ sep) (n ++ sep) [] hc
      (by simp [findNamespaceItem]), hseg, hrest,
      renderNamaspacedKey_leaf sep dbIndex (n ++ sep) [] [] hleaf]
    simp
  simp only [renderKeys, sortKeys, List.insertionSort, List.orderedInsert, List.foldl_cons,
    List.foldl_nil]
  rw [if_neg (by simp [QRegExp.default, QRegExp.isEmpty]), hstep]

/-- C17, as the code has it. For every non-empty separator `S` and every name `n` such that
the first occurrence of `S` in `n+S` is the trailing one, the single key `n+S` renders to one
top-level namespace item named `n` whose only child is a leaf storing `n+S`. That is so for
every `n` when `S` is one code unit not occurring in `n`, and for the key that is just `S`,
which gives a namespace item with the empty name holding one leaf that stores `S`. -/
theorem trailing_separator (sep n : QString) (dbIndex : Int) (hsep : sep ≠ [])
    (hfirst : QString.find sep (n ++ sep) = some n.length) :
    renderKeys [n ++ sep] QRegExp.default sep dbIndex =
        [TreeItem.NamespaceItem n [TreeItem.KeyItem (n ++ sep) dbIndex]] ∧
    (∀ (c : QChar) (m : QString), c ∉ m →
      renderKeys [m ++ [c]] QRegExp.default [c] dbIndex =
        [TreeItem.NamespaceItem m [TreeItem.KeyItem (m ++ [c]) dbIndex]]) ∧
    renderKeys [sep] QRegExp.default sep dbIndex =
        [TreeItem.NamespaceItem [] [TreeItem.KeyItem sep dbIndex]] := by
  refine ⟨renderKeys_trailing sep n dbIndex hsep hfirst, ?_, ?_⟩
  · intro c m hc
    exact renderKeys_trailing [c] m dbIndex (by simp) (QString.find_single c m hc)
  · have := renderKeys_trailing sep [] dbIndex hsep (by simpa using QString.find_self sep)
    simpa using this

/-- C17 at a concrete input: the key `ab::` with the separator `::`. -/
theorem trailing_separator_witness :
    renderKeys [QString.ofAscii "ab::"] QRegExp.default (QString.ofAscii "::") 0 =
      [TreeItem.NamespaceItem (QString.ofAscii "ab")
        [TreeItem.KeyItem (QString.ofAscii "ab::") 0]] :=
  (trailing_separator (QString.ofAscii "::") (QString.ofAscii "ab") 0 (by decide)
    (by decide)).1

/-- C17 fails as stated: the name `a` does not contain the separator `aa`, yet the key `aaa`
renders to a namespace item with the empty name, because the first `aa` in `aaa` starts at
position 0. -/
theorem trailing_separator_overlap :
    QString.contains (QString.ofAscii "a") (QString.ofAscii "aa") = false ∧
    renderKeys [QString.ofAscii "a" ++ QString.ofAscii "aa"] QRegExp.default
        (QString.ofAscii "aa") 0 =
      [TreeItem.NamespaceItem [] [TreeItem.KeyItem (QString.ofAscii "aaa") 0]] ∧
    QString.ofAscii "a" ≠ [] := by
  refine ⟨by decide, ?_, by decide⟩
  rw [renderKeys_eq_fuel]
  rfl

/-- A call of `renderNamaspacedKey` leaves every leaf of the level where it is. -/
theorem renderNamaspacedKey_keeps_leaves (sep : QString) (dbIndex : Int)
    (fullKey np : QString) (level : List TreeItem) (j : Nat) (p : QString) (d : Int)
    (h : level[j]? = some (TreeItem.KeyItem p d)) :
    (renderNamaspacedKey sep dbIndex fullKey np level)[j]? =
      some (TreeItem.KeyItem p d) := by
  have hj : j < level.length := by
    by_contra hge
    rw [List.getElem?_eq_none (by omega)] at h
    simp at h
  by_cases hc : (!QString.contains np sep || sep.isEmpty) = true
  · rw [renderNamaspacedKey_leaf sep dbIndex fullKey np level hc, List.getElem?_append_left hj]
    exact h
  · rcases renderNamaspacedKey_step sep dbIndex fullKey np level hc with
      ⟨pre, cs, post, hl, _, heq⟩ | ⟨_, heq⟩
    · rw [heq]
      rw [hl] at h
      rcases Nat.lt_trichotomy j pre.length with hlt | heq2 | hgt
      · rw [List.getElem?_append_left hlt] at h
        rw [List.getElem?_append_left hlt]
        exact h
      · subst heq2
        rw [getElem?_length_append] at h
        simp at h
      · have hle : pre.length ≤ j := by omega
        rw [List.getElem?_append_right hle] at h
        rw [List.getElem?_append_right hle]
        obtain ⟨k, hk⟩ : ∃ k, j - pre.length = k + 1 := ⟨j - pre.length - 1, by omega⟩
        rw [hk] at h
        rw [hk]
        simpa using h
    · rw [heq, List.getElem?_append_left hj]
      exact h

/-- C18. Leaves are not deduplicated against namespaces. The keys `a` and `a:b` with
separator `:` render to two top-level siblings, the leaf storing `a` followed by the namespace
item `a` whose single child is the leaf storing `a:b`. In general the lookup only ever returns
a namespace item, and a call of `renderNamaspacedKey` leaves every leaf of the level it works
on in place, whatever that leaf displays. -/
theorem leaf_not_reused_as_namespace (sep : QString) (dbIndex : Int) (fullKey np : QString)
    (level : List TreeItem) :
    renderKeys [QString.ofAscii "a", QString.ofAscii "a:b"] QRegExp.default
        (QString.ofAscii ":") dbIndex =
      [TreeItem.KeyItem (QString.ofAscii "a") dbIndex,
        TreeItem.NamespaceItem (QString.ofAscii "a")
          [TreeItem.KeyItem (QString.ofAscii "a:b") dbIndex]] ∧
    (∀ (first : QString) (i : Nat), findNamespaceItem first level = some i →
      ∃ cs, level[i]? = some (TreeItem.NamespaceItem first cs)) ∧
    (∀ (j : Nat) (p : QString) (d : Int), level[j]? = some (TreeItem.KeyItem p d) →
      (renderNamaspacedKey sep dbIndex fullKey np level)[j]? =
        some (TreeItem.KeyItem p d)) := by
  refine ⟨?_, ?_, ?_⟩
  · rw [renderKeys_eq_fuel]
    rfl
  · intro first i hf
    obtain ⟨pre, cs, post, hl, hlen, _⟩ := findNamespaceItem_some _ _ _ hf
    subst hlen
    subst hl
    exact ⟨cs, getElem?_length_append _ _ _⟩
  · intro j p d h
    exact renderNamaspacedKey_keeps_leaves sep dbIndex fullKey np level j p d h

/-- C18 at a concrete input: rendering `a:b` into a level that holds the leaf `a` keeps that
leaf at index 0. -/
theorem leaf_not_reused_as_namespace_witness :
    (renderNamaspacedKey (QString.ofAscii ":") 0 (QString.ofAscii "a:b") (QString.ofAscii "a:b")
      [TreeItem.KeyItem (QString.ofAscii "a") 0])[0]? =
      some (TreeItem.KeyItem (QString.ofAscii "a") 0) :=
  (leaf_not_reused_as_namespace (QString.ofAscii ":") 0 (QString.ofAscii "a:b")
    (QString.ofAscii "a:b") [TreeItem.KeyItem (QString.ofAscii "a") 0]).2.2 0 _ _ rfl

/-! ## First occurrences and the order of keys -/

theorem QString.find_cons (sep : QString) (c : QChar) (cs : QString) :
    QString.find sep (c :: cs) =
      if sep.isPrefixOf (c :: cs) then some 0 else (QString.find sep cs).map (· + 1) := rfl

/-- Text added behind a string does not move the first occurrence it already has. -/
theorem QString.find_append (sep t : QString) :
    ∀ (x : QString) (i : Nat), QString.find sep x = some i →
      QString.find sep (x ++ t) = some i := by
  intro x
  induction x with
  | nil =>
    intro i h
    cases sep with
    | nil =>
      simp [QString.find] at h
      subst h
      cases t <;> simp [QString.find]
    | cons a r => simp [QString.find, List.isPrefixOf] at h
  | cons c cs ih =>
    intro i h
    rw [QString.find_cons] at h
    rw [List.cons_append, QString.find_cons]
    by_cases hp : sep.isPrefixOf (c :: cs) = true
    · rw [if_pos hp] at h
      have hp2 : sep.isPrefixOf (c :: (cs ++ t)) = true := by
        rw [List.isPrefixOf_iff_prefix] at hp ⊢
        exact hp.trans (List.prefix_append (c :: cs) t)
      rw [if_pos hp2]
      exact h
    · rw [if_neg hp] at h
      cases hf : QString.find sep cs with
      | none => simp [hf] at h
      | some j =>
        have hb := QString.find_bound sep cs j hf
        have hp2 : ¬ sep.isPrefixOf (c :: (cs ++ t)) = true := by
          intro hq
          apply hp
          rw [List.isPrefixOf_iff_prefix] at hq ⊢
          exact List.prefix_of_prefix_length_le hq (List.prefix_append (c :: cs) t)
            (by simp; omega)
        rw [if_neg hp2, ih j hf]
        rw [hf] at h
        exact h

/-- A first occurrence that ends inside the front part of a string is the first occurrence
in that front part. -/
theorem QString.find_of_append (sep t : QString) :
    ∀ (x : QString) (i : Nat), QString.find sep (x ++ t) = some i →
      i + sep.length ≤ x.length → QString.find sep x = some i := by
  intro x
  induction x with
  | nil =>
    intro i h hle
    have hle2 : i + sep.length ≤ 0 := hle
    have hs : sep = [] := List.length_eq_zero.mp (by omega)
    have hi : i = 0 := by omega
    subst hs
    subst hi
    simp [QString.find]
  | cons c cs ih =>
    intro i h hle
    rw [List.cons_append, QString.find_cons] at h
    rw [QString.find_cons]
    by_cases hp : sep.isPrefixOf (c :: (cs ++ t)) = true
    · rw [if_pos hp] at h
      have hi : i = 0 := by simpa using h.symm
      subst hi
      have hp2 : sep.isPrefixOf (c :: cs) = true := by
        rw [List.isPrefixOf_iff_prefix] at hp ⊢
        exact List.prefix_of_prefix_length_le hp (List.prefix_append (c :: cs) t)
          (by simpa using hle)
      rw [if_pos hp2]
    · rw [if_neg hp] at h
      have hp2 : ¬ sep.isPrefixOf (c :: cs) = true := by
        intro hq
        apply hp
        rw [List.isPrefixOf_iff_prefix] at hq ⊢
        exact hq.trans (List.prefix_append (c :: cs) t)
      rw [if_neg hp2]
      cases hf : QString.find sep (cs ++ t) with
      | none => simp [hf] at h
      | some j =>
        rw [hf] at h
        have hij : j + 1 = i := by simpa using h
        subst hij
        rw [ih j hf (by simp at hle; omega)]
        rfl

/-- The string is the text before its first occurrence of `sep`, then `sep`, then the text
behind that occurrence. -/
theorem QString.find_split (sep : QString) :
    ∀ (s : QString) (i : Nat), QString.find sep s = some i →
      s = s.take i ++ sep ++ s.drop (i + sep.length) := by
  intro s
  induction s with
  | nil =>
    intro i h
    cases sep with
    | nil => simp
    | cons a r => simp [QString.find, List.isPrefixOf] at h
  | cons c cs ih =>
    intro i h
    rw [QString.find_cons] at h
    by_cases hp : sep.isPrefixOf (c :: cs) = true
    · rw [if_pos hp] at h
      have hi : i = 0 := by simpa using h.symm
      subst hi
      rw [List.isPrefixOf_iff_prefix] at hp
      have := List.prefix_iff_eq_append.mp hp
      simpa using this.symm
    · rw [if_neg hp] at h
      cases hf : QString.find sep cs with
      | none => simp [hf] at h
      | some j =>
        rw [hf] at h
        have hij : j + 1 = i := by simpa using h
        subst hij
        have e := ih j hf
        have hd : (c :: cs).drop (j + 1 + sep.length) = cs.drop (j + sep.length) := by
          have : j + 1 + sep.length = (j + sep.length) + 1 := by omega
          rw [this, List.drop_succ_cons]
        rw [hd, List.take_succ_cons]
        simp only [List.cons_append]
        rw [← e]

/-- What the recursive branch computes: with the separator non-empty and first occurring at
`i`, the segment is the text before `i` and the rest the text behind the occurrence. -/
theorem split_spec (np sep : QString)
    (hc : ¬ (!QString.contains np sep || sep.isEmpty) = true) :
    sep ≠ [] ∧ QString.find sep np = some (firstSegment np sep).length ∧
      np = firstSegment np sep ++ sep ++ restAfter np sep := by
  simp only [Bool.or_eq_true, Bool.not_eq_true', not_or, Bool.not_eq_false] at hc
  obtain ⟨hcon, he⟩ := hc
  obtain ⟨i, hf, hi⟩ := QString.indexOf_of_contains np sep hcon
  have hb := QString.find_bound sep np i hf
  have hseg : firstSegment np sep = np.take i := by
    unfold firstSegment
    rw [hi, QString.mid_left np i (by omega)]
  have hrest : restAfter np sep = np.drop (i + sep.length) := by
    unfold restAfter
    rw [hi]
    have hcast : ((i : Int) + (sep.length : Int)) = ((i + sep.length : Nat) : Int) := by
      push_cast; rfl
    rw [hcast, QString.mid_from np (i + sep.length) hb]
  have hlen : (np.take i).length = i := by
    rw [List.length_take]
    omega
  refine ⟨?_, ?_, ?_⟩
  · intro hnil
    rw [hnil] at he
    simp at he
  · rw [hseg, hlen]
    exact hf
  · rw [hseg, hrest]
    exact QString.find_split sep np i hf

/-- The first segment of a key part is followed by the first occurrence of the separator,
also when taken by itself. -/
theorem firstSegment_first (np sep : QString)
    (hc : ¬ (!QString.contains np sep || sep.isEmpty) = true) :
    QString.find sep (firstSegment np sep ++ sep) = some (firstSegment np sep).length := by
  obtain ⟨_, hf, hsplit⟩ := split_spec np sep hc
  rw [hsplit] at hf
  have hlen : (firstSegment (firstSegment np sep ++ sep ++ restAfter np sep) sep).length =
      (firstSegment np sep).length := by rw [← hsplit]
  rw [hlen] at hf
  exact QString.find_of_append sep (restAfter np sep) (firstSegment np sep ++ sep) _ hf
    (by simp)

/-- Two segments, each followed by the first occurrence of the separator, that start the same
text are the same segment. -/
theorem segment_unique (sep f g t u : QString)
    (hf : QString.find sep (f ++ sep) = some f.length)
    (hg : QString.find sep (g ++ sep) = some g.length)
    (h : f ++ sep ++ t = g ++ sep ++ u) : f = g := by
  have h1 := QString.find_append sep t (f ++ sep) _ hf
  have h2 := QString.find_append sep u (g ++ sep) _ hg
  rw [h, h2] at h1
  have hlen : g.length = f.length := by simpa using h1
  have h3 : (f ++ (sep ++ t)).take f.length = (g ++ (sep ++ u)).take f.length := by
    simp only [← List.append_assoc, h]
  rw [List.take_left] at h3
  rw [← hlen, List.take_left] at h3
  exact h3

/-- Keys between two keys that start with the same text start with that text too. -/
theorem prefix_between :
    ∀ (q a b c : List Nat), q <+: a → q <+: c → a ≤ b → b ≤ c → q <+: b := by
  intro q
  induction q with
  | nil => intro a b c _ _ _ _; exact List.nil_prefix
  | cons x q ih =>
    intro a b c ha hc hab hbc
    obtain ⟨a2, rfl⟩ : ∃ a2, a = x :: a2 := by
      obtain ⟨t, ht⟩ := ha
      exact ⟨q ++ t, by simpa using ht.symm⟩
    obtain ⟨c2, rfl⟩ : ∃ c2, c = x :: c2 := by
      obtain ⟨t, ht⟩ := hc
      exact ⟨q ++ t, by simpa using ht.symm⟩
    have ha2 : q <+: a2 := (List.prefix_cons_inj x).mp ha
    have hc2 : q <+: c2 := (List.prefix_cons_inj x).mp hc
    rw [← not_lt] at hab hbc
    cases b with
    | nil => exact absurd (List.Lex.nil) hab
    | cons y b2 =>
      have hxy : ¬ y < x := fun h => hab (List.Lex.rel h)
      have hyx : ¬ x < y := fun h => hbc (List.Lex.rel h)
      have hy : y = x := by omega
      subst hy
      have hab2 : a2 ≤ b2 := by
        rw [← not_lt]
        exact fun h => hab (List.Lex.cons h)
      have hbc2 : b2 ≤ c2 := by
        rw [← not_lt]
        exact fun h => hbc (List.Lex.cons h)
      exact (List.prefix_cons_inj y).mpr (ih a2 b2 c2 ha2 hc2 hab2 hbc2)

/-! ## Paths and segments -/

theorem keySegmentsAux_fuel (sep : QString) :
    ∀ (f1 f2 : Nat) (key : QString), key.length < f1 → key.length < f2 →
      keySegmentsAux sep f1 key = keySegmentsAux sep f2 key := by
  intro f1
  induction f1 with
  | zero => intro f2 key h; omega
  | succ n ih =>
    intro f2 key h1 h2
    cases f2 with
    | zero => omega
    | succ m =>
      simp only [keySegmentsAux]
      by_cases hc : (!QString.contains key sep || sep.isEmpty) = true
      · rw [if_pos hc, if_pos hc]
      · rw [if_neg hc, if_neg hc]
        have hlt : (restAfter key sep).length < key.length := QString.rest_length_lt key sep hc
        rw [ih m (restAfter key sep) (by omega) (by omega)]

/-- The defining equation of `keySegments`: a key that is not split is its own single
segment, any other key is its first segment followed by the segments of the rest. -/
theorem keySegments_eq (sep key : QString) :
    keySegments sep key =
      if (!QString.contains key sep || sep.isEmpty) = true then [key]
      else firstSegment key sep :: keySegments sep (restAfter key sep) := by
  unfold keySegments
  rw [keySegmentsAux]
  by_cases hc : (!QString.contains key sep || sep.isEmpty) = true
  · rw [if_pos hc, if_pos hc]
  · rw [if_neg hc, if_neg hc]
    have hlt : (restAfter key sep).length < key.length := QString.rest_length_lt key sep hc
    rw [keySegmentsAux_fuel sep key.length ((restAfter key sep).length + 1)
      (restAfter key sep) hlt (Nat.lt_succ_self _)]

theorem keySegments_ne_nil (sep key : QString) : keySegments sep key ≠ [] := by
  rw [keySegments_eq]
  split <;> simp

theorem keySegments_dropLast_leaf (sep key : QString)
    (hc : (!QString.contains key sep || sep.isEmpty) = true) :
    (keySegments sep key).dropLast = [] := by
  rw [keySegments_eq, if_pos hc]
  rfl

theorem keySegments_dropLast_step (sep key : QString)
    (hc : ¬ (!QString.contains key sep || sep.isEmpty) = true) :
    (keySegments sep key).dropLast =
      firstSegment key sep :: (keySegments sep (restAfter key sep)).dropLast := by
  rw [keySegments_eq, if_neg hc,
    List.dropLast_cons_of_ne_nil (keySegments_ne_nil sep (restAfter key sep))]

theorem leafPaths_append (a b : List TreeItem) :
    leafPaths (a ++ b) = leafPaths a ++ leafPaths b := by
  induction a with
  | nil => simp [leafPaths]
  | cons c cs ih => simp [leafPaths, ih]

/-- A call of `renderNamaspacedKey` leaves the paths of the leaves of the level as they are
and adds one leaf, whose path below the level is the segments of the part still to process
without the last. -/
theorem leafPaths_renderNamaspacedKey (sep : QString) (dbIndex : Int) (fullKey : QString) :
    ∀ (np : QString) (level : List TreeItem),
      ∀ x ∈ leafPaths (renderNamaspacedKey sep dbIndex fullKey np level),
        x ∈ leafPaths level ∨ x = ((keySegments sep np).dropLast, fullKey) := by
  apply renderNamaspacedKey_cases sep dbIndex fullKey
    (fun np level result => ∀ x ∈ leafPaths result,
      x ∈ leafPaths level ∨ x = ((keySegments sep np).dropLast, fullKey))
  · intro np level hc x hx
    simp only [leafPaths_append, leafPaths, TreeItem.leafPaths, List.append_nil,
      List.mem_append, List.mem_singleton] at hx
    rcases hx with hx | hx
    · exact Or.inl hx
    · right
      rw [keySegments_dropLast_leaf sep np hc]
      exact hx
  · intro np pre cs post hc _ ih x hx
    simp only [leafPaths_append, leafPaths, TreeItem.leafPaths, List.mem_append,
      List.mem_map] at hx ⊢
    rcases hx with hx | ⟨y, hy, rfl⟩ | hx
    · exact Or.inl (Or.inl hx)
    · rcases ih y hy with hy2 | hy2
      · exact Or.inl (Or.inr (Or.inl ⟨y, hy2, rfl⟩))
      · right
        rw [keySegments_dropLast_step sep np hc, hy2]
    · exact Or.inl (Or.inr (Or.inr hx))
  · intro np level hc _ ih x hx
    simp only [leafPaths_append, leafPaths, TreeItem.leafPaths, List.append_nil,
      List.mem_append, List.mem_map] at hx
    rcases hx with hx | ⟨y, hy, rfl⟩
    · exact Or.inl hx
    · rcases ih y hy with hy2 | hy2
      · simp [leafPaths] at hy2
      · right
        rw [keySegments_dropLast_step sep np hc, hy2]

theorem leafPaths_renderLoop (filter : QRegExp) (sep : QString) (dbIndex : Int) :
    ∀ (keys : List QString) (result : List TreeItem),
      (∀ x ∈ leafPaths result, x.1 = (keySegments sep x.2).dropLast) →
      ∀ x ∈ leafPaths (keys.foldl
        (fun result rawKey =>
          if (!filter.isEmpty && !QString.containsRx rawKey filter) = true then result
          else renderNamaspacedKey sep dbIndex rawKey rawKey result)
        result), x.1 = (keySegments sep x.2).dropLast := by
  intro keys
  induction keys with
  | nil => intro result H; simpa using H
  | cons k ks ih =>
    intro result H
    rw [List.foldl_cons]
    apply ih
    by_cases hk : (!filter.isEmpty && !QString.containsRx k filter) = true
    · rw [if_pos hk]
      exact H
    · rw [if_neg hk]
      intro x hx
      rcases leafPaths_renderNamaspacedKey sep dbIndex k k result x hx with h | h
      · exact H x h
      · rw [h]

/-- The names of the segments of a key but the last, each followed by the separator, spell
the beginning of the key. -/
theorem keySegments_spell (sep : QString) :
    ∀ (key : QString),
      (((keySegments sep key).dropLast).map (fun n => n ++ sep)).flatten <+: key := by
  suffices H : ∀ (n : Nat) (key : QString), key.length = n →
      (((keySegments sep key).dropLast).map (fun n => n ++ sep)).flatten <+: key from
    fun key => H _ key rfl
  intro n
  induction n using Nat.strong_induction_on with
  | _ n ih =>
    intro key hn
    by_cases hc : (!QString.contains key sep || sep.isEmpty) = true
    · rw [keySegments_dropLast_leaf sep key hc]
      exact List.nil_prefix
    · rw [keySegments_dropLast_step sep key hc]
      obtain ⟨_, _, hsplit⟩ := split_spec key sep hc
      have hlt : (restAfter key sep).length < n := by
        have := QString.rest_length_lt key sep hc
        unfold restAfter
        omega
      have h := ih _ hlt (restAfter key sep) rfl
      simp only [List.map_cons, List.flatten_cons]
      conv => rhs; rw [hsplit]
      exact (List.prefix_append_right_inj _).mpr h

mutual
theorem TreeItem.itemLeafPaths_keys : ∀ (t : TreeItem), t.leafPaths.map Prod.snd = t.leafKeys
  | TreeItem.KeyItem p _ => by simp [TreeItem.leafPaths, TreeItem.leafKeys]
  | TreeItem.NamespaceItem n cs => by
    simp only [TreeItem.leafPaths, TreeItem.leafKeys, List.map_map]
    exact leafPaths_keys cs
theorem leafPaths_keys : ∀ (l : List TreeItem), (leafPaths l).map Prod.snd = leafKeys l
  | [] => by simp [leafPaths, leafKeys]
  | c :: cs => by
    simp only [leafPaths, leafKeys, List.map_append]
    rw [TreeItem.itemLeafPaths_keys c, leafPaths_keys cs]
end

/-- C19. Path and segments. For every key list, filter, separator and database index, and for
every leaf of the tree `renderKeys` returns: the display names of the namespace items above
the leaf, outermost first, are the segments of the stored key, split repeatedly at the first
occurrence of the separator, without the last segment; so the depth of the leaf is the number
of splits, and the names, each followed by the separator, spell the beginning of the key. The
paths listed are those of all leaves of the tree. -/
theorem path_is_segments (K : List QString) (filter : QRegExp) (sep : QString) (dbIndex : Int)
    (x : List QString × QString) (hx : x ∈ leafPaths (renderKeys K filter sep dbIndex)) :
    x.1 = (keySegments sep x.2).dropLast ∧
    x.1.length + 1 = (keySegments sep x.2).length ∧
    ((x.1.map (fun n => n ++ sep)).flatten) <+: x.2 ∧
    (leafPaths (renderKeys K filter sep dbIndex)).map Prod.snd =
      leafKeys (renderKeys K filter sep dbIndex) := by
  have h1 : x.1 = (keySegments sep x.2).dropLast := by
    unfold renderKeys at hx
    exact leafPaths_renderLoop filter sep dbIndex (sortKeys K) []
      (by intro y hy; simp [leafPaths] at hy) x hx
  refine ⟨h1, ?_, ?_, leafPaths_keys _⟩
  · rw [h1, List.length_dropLast]
    have := List.length_pos.mpr (keySegments_ne_nil sep x.2)
    omega
  · rw [h1]
    exact keySegments_spell sep x.2

/-- C19 at a concrete input: in the tree of the four example keys the leaf storing
`user:1:age` lies below the namespaces `user` and `1`. -/
theorem path_is_segments_witness :
    [QString.ofAscii "user", QString.ofAscii "1"] =
      (keySegments (QString.ofAscii ":") (QString.ofAscii "user:1:age")).dropLast :=
  (path_is_segments
    [QString.ofAscii "user:1:name", QString.ofAscii "user:1:age",
      QString.ofAscii "user:2:name", QString.ofAscii "counter"]
    QRegExp.default (QString.ofAscii ":") 0
    ([QString.ofAscii "user", QString.ofAscii "1"], QString.ofAscii "user:1:age")
    (by rw [renderKeys_eq_fuel]; decide)).1

/-! ## Sorted traversal -/

theorem WellPlacedList_append (sep lead : QString) (a b : List TreeItem) :
    WellPlacedList sep lead (a ++ b) ↔
      WellPlacedList sep lead a ∧ WellPlacedList sep lead b := by
  induction a with
  | nil => simp [WellPlacedList]
  | cons c cs ih => simp [WellPlacedList, ih, and_assoc]

/-- A part of a key that starts with a segment and the separator contains the separator. -/
theorem not_leaf_of_segment (sep f r : QString) (hsep : sep ≠ [])
    (hf : QString.find sep (f ++ sep) = some f.length) (hp : (f ++ sep) <+: r) :
    ¬ (!QString.contains r sep || sep.isEmpty) = true := by
  obtain ⟨t, rfl⟩ := hp
  have h := QString.find_append sep t (f ++ sep) _ hf
  have he : sep.isEmpty = false := by
    cases sep with
    | nil => exact absurd rfl hsep
    | cons c cs => rfl
  have hidx : QString.indexOf (f ++ sep ++ t) sep = (f.length : Int) := by
    unfold QString.indexOf
    rw [h]
  have hcon : QString.contains (f ++ sep ++ t) sep = true := by
    unfold QString.contains
    rw [hidx]
    simp
  rw [hcon, he]
  simp

/-- When the keys arrive in ascending order, a namespace item that receives a key is the last
item of its level. -/
theorem found_is_last (sep lead f full : QString) (pre cs post : List TreeItem)
    (hsep : sep ≠ []) (hVf : QString.find sep (f ++ sep) = some f.length)
    (hlead : (lead ++ f ++ sep) <+: full)
    (hW : WellPlacedList sep lead (pre ++ TreeItem.NamespaceItem f cs :: post))
    (hN : (namespaceNames (pre ++ TreeItem.NamespaceItem f cs :: post)).Nodup)
    (hS : (leafKeys (pre ++ TreeItem.NamespaceItem f cs :: post)).Pairwise (· ≤ ·))
    (hB : ∀ k ∈ leafKeys (pre ++ TreeItem.NamespaceItem f cs :: post), k ≤ full) :
    post = [] := by
  cases post with
  | nil => rfl
  | cons item rest =>
    exfalso
    rw [WellPlacedList_append] at hW
    obtain ⟨_, hWns, hWitem, _⟩ := hW
    obtain ⟨_, hne, hpre, _, _⟩ := hWns
    obtain ⟨k1, hk1⟩ := List.exists_mem_of_ne_nil _ hne
    simp only [leafKeys_append, leafKeys, TreeItem.leafKeys] at hS hB
    rw [List.pairwise_append] at hS
    obtain ⟨_, hS2, _⟩ := hS
    rw [List.pairwise_append] at hS2
    obtain ⟨_, _, hcross⟩ := hS2
    have hbetween : ∀ k2 ∈ item.leafKeys, (lead ++ f ++ sep) <+: k2 := by
      intro k2 hk2
      have h12 : k1 ≤ k2 := hcross k1 hk1 k2 (List.mem_append_left _ hk2)
      have h2f : k2 ≤ full :=
        hB k2 (List.mem_append_right _ (List.mem_append_right _ (List.mem_append_left _ hk2)))
      exact prefix_between _ k1 k2 full (hpre k1 hk1) hlead h12 h2f
    cases item with
    | KeyItem k d =>
      obtain ⟨r, hr, hcond⟩ := hWitem
      have hk := hbetween k (by simp [TreeItem.leafKeys])
      rw [hr, List.append_assoc, List.prefix_append_right_inj] at hk
      exact not_leaf_of_segment sep f r hsep hVf hk hcond
    | NamespaceItem g cs2 =>
      obtain ⟨hVg, hne2, hpre2, _, _⟩ := hWitem
      obtain ⟨k2, hk2⟩ := List.exists_mem_of_ne_nil _ hne2
      have hfk := hbetween k2 (by simpa [TreeItem.leafKeys] using hk2)
      have hgk := hpre2 k2 hk2
      obtain ⟨t, ht⟩ := hfk
      obtain ⟨u, hu⟩ := hgk
      have heq : f ++ sep ++ t = g ++ sep ++ u := by
        have : lead ++ (f ++ sep ++ t) = lead ++ (g ++ sep ++ u) := by
          simp only [List.append_assoc] at ht hu ⊢
          rw [ht, hu]
        exact List.append_cancel_left this
      have hfg : f = g := segment_unique sep f g t u hVf hVg heq
      simp only [namespaceNames_append, namespaceNames] at hN
      rw [List.nodup_append] at hN
      obtain ⟨_, hN2, _⟩ := hN
      rw [List.nodup_cons] at hN2
      exact hN2.1 (by simp [hfg])

/-- A call of `renderNamaspacedKey` for a key that is not below any key already stored puts
its leaf behind all leaves of the level, in left-to-right order at every depth, and keeps the
level rightly built. -/
theorem sorted_renderNamaspacedKey (sep : QString) (dbIndex : Int) (fullKey : QString) :
    ∀ (np : QString) (level : List TreeItem) (lead : QString),
      fullKey = lead ++ np → WellPlacedList sep lead level → (namespaceNames level).Nodup →
      (leafKeys level).Pairwise (· ≤ ·) → (∀ k ∈ leafKeys level, k ≤ fullKey) →
      leafKeys (renderNamaspacedKey sep dbIndex fullKey np level) =
          leafKeys level ++ [fullKey] ∧
        WellPlacedList sep lead (renderNamaspacedKey sep dbIndex fullKey np level) ∧
        (namespaceNames (renderNamaspacedKey sep dbIndex fullKey np level)).Nodup := by
  apply renderNamaspacedKey_cases sep dbIndex fullKey
    (fun np level result => ∀ (lead : QString),
      fullKey = lead ++ np → WellPlacedList sep lead level → (namespaceNames level).Nodup →
      (leafKeys level).Pairwise (· ≤ ·) → (∀ k ∈ leafKeys level, k ≤ fullKey) →
      leafKeys result = leafKeys level ++ [fullKey] ∧
        WellPlacedList sep lead result ∧ (namespaceNames result).Nodup)
  · intro np level hc lead hfull hW hN _ _
    refine ⟨?_, ?_, ?_⟩
    · simp [leafKeys_append, leafKeys, TreeItem.leafKeys]
    · rw [WellPlacedList_append]
      exact ⟨hW, ⟨np, hfull, hc⟩, trivial⟩
    · simpa [namespaceNames_append, namespaceNames] using hN
  · intro np pre cs post hc _ ih lead hfull hW hN hS hB
    obtain ⟨hsep, _, hsplit⟩ := split_spec np sep hc
    have hVf := firstSegment_first np sep hc
    have hfull2 : fullKey = (lead ++ firstSegment np sep ++ sep) ++ restAfter np sep := by
      rw [hfull]
      conv => lhs; rw [hsplit]
      simp only [List.append_assoc]
    have hlead : (lead ++ firstSegment np sep ++ sep) <+: fullKey :=
      ⟨restAfter np sep, hfull2.symm⟩
    have hpost : post = [] :=
      found_is_last sep lead (firstSegment np sep) fullKey pre cs post hsep hVf hlead hW hN
        hS hB
    subst hpost
    have hW0 := hW
    rw [WellPlacedList_append] at hW
    obtain ⟨hWpre, hWns, _⟩ := hW
    obtain ⟨_, _, hpre, hNcs, hWcs⟩ := hWns
    have hScs : (leafKeys cs).Pairwise (· ≤ ·) := by
      simp only [leafKeys_append, leafKeys, TreeItem.leafKeys, List.append_nil] at hS
      exact (List.pairwise_append.mp hS).2.1
    have hBcs : ∀ k ∈ leafKeys cs, k ≤ fullKey := by
      intro k hk
      apply hB
      simp only [leafKeys_append, leafKeys, TreeItem.leafKeys, List.append_nil]
      exact List.mem_append_right _ hk
    obtain ⟨hk, hW2, hN2⟩ := ih _ hfull2 hWcs hNcs hScs hBcs
    refine ⟨?_, ?_, ?_⟩
    · simp only [leafKeys_append, leafKeys, TreeItem.leafKeys, List.append_nil, hk,
        List.append_assoc]
    · rw [WellPlacedList_append]
      refine ⟨hWpre, ⟨hVf, ?_, ?_, hN2, hW2⟩, trivial⟩
      · rw [hk]
        simp
      · intro k hkm
        rw [hk] at hkm
        rcases List.mem_append.mp hkm with h | h
        · exact hpre k h
        · rw [List.mem_singleton.mp h]
          exact hlead
    · simpa [namespaceNames_append, namespaceNames] using hN
  · intro np level hc hnot ih lead hfull hW hN _ _
    obtain ⟨hsep, _, hsplit⟩ := split_spec np sep hc
    have hVf := firstSegment_first np sep hc
    have hfull2 : fullKey = (lead ++ firstSegment np sep ++ sep) ++ restAfter np sep := by
      rw [hfull]
      conv => lhs; rw [hsplit]
      simp only [List.append_assoc]
    have hlead : (lead ++ firstSegment np sep ++ sep) <+: fullKey :=
      ⟨restAfter np sep, hfull2.symm⟩
    obtain ⟨hk, hW2, hN2⟩ := ih _ hfull2 trivial (by simp [namespaceNames])
      (by simp [leafKeys]) (by simp [leafKeys])
    simp only [leafKeys, List.nil_append] at hk
    refine ⟨?_, ?_, ?_⟩
    · simp only [leafKeys_append, leafKeys, TreeItem.leafKeys, List.append_nil, hk]
    · rw [WellPlacedList_append]
      refine ⟨hW, ⟨hVf, ?_, ?_, hN2, hW2⟩, trivial⟩
      · rw [hk]
        simp
      · intro k hkm
        rw [hk, List.mem_singleton] at hkm
        rw [hkm]
        exact hlead
    · simp only [namespaceNames_append, namespaceNames]
      exact List.Nodup.append hN (List.nodup_singleton _)
        (fun a ha hb => by
          simp only [List.mem_singleton] at hb
          exact hnot (hb ▸ ha))

theorem sorted_renderLoop (filter : QRegExp) (sep : QString) (dbIndex : Int) :
    ∀ (keys : List QString) (result : List TreeItem),
      WellPlacedList sep [] result → (namespaceNames result).Nodup →
      (leafKeys result ++ keys.filter (passesFilter filter)).Pairwise (· ≤ ·) →
      leafKeys (keys.foldl
        (fun result rawKey =>
          if (!filter.isEmpty && !QString.containsRx rawKey filter) = true then result
          else renderNamaspacedKey sep dbIndex rawKey rawKey result)
        result) = leafKeys result ++ keys.filter (passesFilter filter) := by
  intro keys
  induction keys with
  | nil => intro result _ _ _; simp
  | cons k ks ih =>
    intro result hW hN hS
    rw [List.foldl_cons]
    by_cases hk : (!filter.isEmpty && !QString.containsRx k filter) = true
    · have hp : passesFilter filter k = false := by simp [passesFilter, hk]
      rw [if_pos hk]
      simp only [List.filter_cons, hp] at hS ⊢
      exact ih result hW hN hS
    · have hp : passesFilter filter k = true := by
        unfold passesFilter
        cases h1 : filter.isEmpty <;> cases h2 : QString.containsRx k filter <;> simp_all
      rw [if_neg hk]
      simp only [List.filter_cons, hp, if_true] at hS ⊢
      have hS1 := (List.pairwise_append.mp hS).1
      have hB : ∀ x ∈ leafKeys result, x ≤ k := fun x hx =>
        (List.pairwise_append.mp hS).2.2 x hx k (List.mem_cons_self _ _)
      obtain ⟨hk2, hW2, hN2⟩ :=
        sorted_renderNamaspacedKey sep dbIndex k k result [] rfl hW hN hS1 hB
      rw [ih _ hW2 hN2 (by rw [hk2]; simpa using hS), hk2]
      simp

/-- C20. Sorted traversal. For every key list, filter, separator and database index, the
keys stored in the leaves of the tree `renderKeys` returns, read depth first and left to
right, are exactly the keys of the input that pass the filter, in ascending order: the sorted
rearrangement of the input with the filtered keys left out. -/
theorem sorted_traversal (K : List QString) (filter : QRegExp) (sep : QString)
    (dbIndex : Int) :
    leafKeys (renderKeys K filter sep dbIndex) = (sortKeys K).filter (passesFilter filter) ∧
    ((sortKeys K).filter (passesFilter filter)).Sorted (· ≤ ·) ∧
    ((sortKeys K).filter (passesFilter filter)).Perm (K.filter (passesFilter filter)) := by
  have hs : ((sortKeys K).filter (passesFilter filter)).Sorted (· ≤ ·) :=
    (sortKeys_sorted K).filter _
  refine ⟨?_, hs, (sortKeys_perm K).filter _⟩
  unfold renderKeys
  rw [sorted_renderLoop filter sep dbIndex (sortKeys K) [] trivial (by simp [namespaceNames])
    (by simpa [leafKeys] using hs)]
  simp [leafKeys]

end ConnectionsTree
